import Mathlib

set_option maxHeartbeats 1000000

/-!
Verification of the element-extraction and caching core of the `ai-agent`
repository.  The Python sources embedded here are:

* `src/utils/a11y_tree.py` — `find_working_node`, `extract_information_blocks`
* `src/browser/locator.py` — `ElementLocator.list_informative_elements`,
  `ElementLocator._extract_informative_nodes`,
  `ElementLocator.list_interactive_elements`, `ElementLocator._generate_selector`
* `src/services/tools_cache_manager.py` — `PageCache`, `ElementsCacheManager`

Accessibility-tree nodes (Python dicts with keys `role`, `name`, `type`,
`children`) are modelled by the inductive `ANode`; missing keys are `none`.
Python dict equality (`==`) is structural, which `beqA` mirrors.  Where the
Python code performs an operation that raises at run time (attribute lookups
that do not exist, wrong-arity calls, methods applied to values of the wrong
type), the embedding returns `Except.error` with a constructor naming the
Python exception class.
-/

/-- Python exception values that the embedded code can raise. -/
inductive PyErr where
  | attributeError (msg : String)
  | typeError (msg : String)
  | keyError (msg : String)
  deriving DecidableEq, Repr

/-! ### String containment (Python `needle in hay`) -/

/-- Does `hay` start with `needle` (character lists)? -/
def startsL : List Char → List Char → Bool
  | _, [] => true
  | [], _ :: _ => false
  | a :: as, b :: bs => a == b && startsL as bs

/-- Does `hay` contain `needle` as a contiguous run (character lists)? -/
def containsL : List Char → List Char → Bool
  | hay, [] => (fun _ => true) hay
  | [], _ :: _ => false
  | a :: as, b :: bs => startsL (a :: as) (b :: bs) || containsL as (b :: bs)

/-- Python's `needle in hay` on strings. -/
def hasSub (hay needle : String) : Bool :=
  containsL hay.toList needle.toList

/-- Python whitespace (the characters `str.strip` removes by default). -/
def isPySpace (c : Char) : Bool :=
  c == ' ' || c == '\t' || c == '\n' || c == '\r' || c == '\x0b' || c == '\x0c'

/-- Python `s.strip()`. -/
def pyStrip (s : String) : String :=
  ⟨((s.toList.dropWhile isPySpace).reverse.dropWhile isPySpace).reverse⟩

/-- Python `sep.flatten(parts)`. -/
def pyJoin (sep : String) : List String → String
  | [] => ""
  | [x] => x
  | x :: y :: xs => x ++ sep ++ pyJoin sep (y :: xs)

/-! ### Accessibility-tree nodes -/

/-- A node of the accessibility tree: a Python dict with optional keys
`role`, `name`, `type` and a list of `children`. -/
inductive ANode where
  | mk (role : Option String) (name : Option String) (ty : Option String)
      (children : List ANode)

def ANode.role : ANode → Option String
  | .mk r _ _ _ => r

def ANode.name : ANode → Option String
  | .mk _ n _ _ => n

def ANode.ty : ANode → Option String
  | .mk _ _ t _ => t

def ANode.children : ANode → List ANode
  | .mk _ _ _ c => c

mutual
/-- Structural equality of nodes, mirroring Python dict `==`. -/
def beqA : ANode → ANode → Bool
  | .mk r1 n1 t1 c1, .mk r2 n2 t2 c2 =>
    r1 == r2 && n1 == n2 && t1 == t2 && beqLA c1 c2
def beqLA : List ANode → List ANode → Bool
  | [], [] => true
  | a :: as, b :: bs => beqA a b && beqLA as bs
  | _, _ => false
end

instance : BEq ANode := ⟨beqA⟩

theorem beqA_def (a b : ANode) : (a == b) = beqA a b := rfl

mutual
theorem beqA_iff : ∀ (a b : ANode), beqA a b = true ↔ a = b
  | .mk r1 n1 t1 c1, .mk r2 n2 t2 c2 => by
    simp only [beqA, Bool.and_eq_true, beq_iff_eq, ANode.mk.injEq]
    constructor
    · rintro ⟨⟨⟨hr, hn⟩, ht⟩, hc⟩
      exact ⟨hr, hn, ht, (beqLA_iff c1 c2).1 hc⟩
    · rintro ⟨hr, hn, ht, hc⟩
      exact ⟨⟨⟨hr, hn⟩, ht⟩, (beqLA_iff c1 c2).2 hc⟩
theorem beqLA_iff : ∀ (as bs : List ANode), beqLA as bs = true ↔ as = bs
  | [], [] => by simp [beqLA]
  | [], _ :: _ => by simp [beqLA]
  | _ :: _, [] => by simp [beqLA]
  | a :: as, b :: bs => by
    simp only [beqLA, Bool.and_eq_true, List.cons.injEq]
    constructor
    · rintro ⟨h1, h2⟩
      exact ⟨(beqA_iff a b).1 h1, (beqLA_iff as bs).1 h2⟩
    · rintro ⟨h1, h2⟩
      exact ⟨(beqA_iff a b).2 h1, (beqLA_iff as bs).2 h2⟩
end

instance : LawfulBEq ANode where
  eq_of_beq h := (beqA_iff _ _).1 h
  rfl := (beqA_iff _ _).2 rfl

instance : DecidableEq ANode := fun a b =>
  decidable_of_iff (beqA a b = true) (beqA_iff a b)

mutual
/-- Preorder (depth-first, document order) listing of a tree's nodes. -/
def preA : ANode → List ANode
  | .mk r n t c => .mk r n t c :: preLA c
def preLA : List ANode → List ANode
  | [] => []
  | a :: as => preA a ++ preLA as
end

mutual
/-- Node count of a tree. -/
def szA : ANode → Nat
  | .mk _ _ _ c => 1 + szLA c
def szLA : List ANode → Nat
  | [] => 0
  | a :: as => szA a + szLA as
end

mutual
/-- Is `x` a node of the (sub)tree `s` (including `s` itself)? -/
def belowA (x : ANode) : ANode → Bool
  | .mk r n t c => beqA x (.mk r n t c) || belowLA x c
def belowLA (x : ANode) : List ANode → Bool
  | [] => false
  | a :: as => belowA x a || belowLA x as
end

/-- Is `x` a strict descendant of `s`? -/
def strictBelowA (x s : ANode) : Bool :=
  belowLA x s.children

theorem preA_def (r n t : Option String) (c : List ANode) :
    preA (.mk r n t c) = .mk r n t c :: preLA c := by
  rw [preA]

theorem preLA_nil : preLA [] = [] := by rw [preLA]

theorem preLA_cons (a : ANode) (as : List ANode) :
    preLA (a :: as) = preA a ++ preLA as := by
  rw [preLA]

theorem szA_def (r n t : Option String) (c : List ANode) :
    szA (.mk r n t c) = 1 + szLA c := by rw [szA]

theorem szLA_nil : szLA [] = 0 := by rw [szLA]

theorem szLA_cons (a : ANode) (as : List ANode) :
    szLA (a :: as) = szA a + szLA as := by rw [szLA]

mutual
theorem mem_preA_sz : ∀ (t m : ANode), m ∈ preA t → szA m ≤ szA t
  | .mk r n ty c, m, hm => by
    rw [preA_def] at hm
    rcases List.mem_cons.1 hm with h | h
    · exact le_of_eq (by rw [h])
    · calc szA m ≤ szLA c := mem_preLA_sz c m h
        _ ≤ 1 + szLA c := by omega
        _ = szA (.mk r n ty c) := (szA_def r n ty c).symm
theorem mem_preLA_sz : ∀ (l : List ANode) (m : ANode), m ∈ preLA l → szA m ≤ szLA l
  | [], m, hm => by rw [preLA_nil] at hm; exact absurd hm (List.not_mem_nil m)
  | a :: as, m, hm => by
    rw [preLA_cons] at hm
    rw [szLA_cons]
    rcases List.mem_append.1 hm with h | h
    · have := mem_preA_sz a m h; omega
    · have := mem_preLA_sz as m h; omega
end

mutual
theorem belowA_mem_preA : ∀ (s x : ANode), belowA x s = true → x ∈ preA s
  | .mk r n t c, x, hx => by
    rw [belowA] at hx
    rw [preA_def]
    rw [Bool.or_eq_true] at hx
    rcases hx with h | h
    · exact List.mem_cons.2 (Or.inl ((beqA_iff _ _).1 h))
    · exact List.mem_cons.2 (Or.inr (belowLA_mem_preLA c x h))
theorem belowLA_mem_preLA : ∀ (l : List ANode) (x : ANode),
    belowLA x l = true → x ∈ preLA l
  | [], x, hx => by rw [belowLA] at hx; exact absurd hx (by simp)
  | a :: as, x, hx => by
    rw [belowLA] at hx
    rw [preLA_cons]
    rw [Bool.or_eq_true] at hx
    rcases hx with h | h
    · exact List.mem_append.2 (Or.inl (belowA_mem_preA a x h))
    · exact List.mem_append.2 (Or.inr (belowLA_mem_preLA as x h))
end

theorem strictBelowA_sz (x s : ANode) (h : strictBelowA x s = true) :
    szA x < szA s := by
  obtain ⟨r, n, t, c⟩ := s
  rw [strictBelowA] at h
  have := mem_preLA_sz c x (belowLA_mem_preLA c x h)
  rw [szA_def]
  omega

theorem strictBelowA_irrefl (x s : ANode) (h : strictBelowA x s = true)
    (hm : s ∈ preA x) : False := by
  have h1 := strictBelowA_sz x s h
  have h2 := mem_preA_sz x s hm
  omega

example : hasSub "Top Search Results here" "Search Results" = true := by decide
example : hasSub "Search Result" "Search Results" = false := by decide

/-! ### `find_working_node` (src/utils/a11y_tree.py, lines 1–57)

The Python function does a depth-first traversal with a mutable
`traverse_info` record and a `break_recursion` flag.  `traverseA` passes the
record (`TravInfo`) explicitly; `path` is the list of ancestors (root first)
and `parent` the immediate parent, exactly as in the source.  Children stored
as a dict are iterated over their values, which the `List ANode` field
already captures. -/

/-- The mutable `traverse_info` dict of `find_working_node`, plus the
`break_recursion` flag. -/
structure TravInfo where
  mainNode : Option ANode
  targetHeader : Option ANode
  headerParent : Option ANode
  mainIsAncestor : Bool
  breakRec : Bool
  deriving DecidableEq

def initTI : TravInfo := ⟨none, none, none, false, false⟩

/-- Python `node.get("role") == "main"`. -/
def isMainA (n : ANode) : Bool := n.role == some "main"

/-- Python `node.get("role") == "header" and "Search Results" in node.get("name", "")`. -/
def isHdrA (n : ANode) : Bool :=
  n.role == some "header" && hasSub (n.name.getD "") "Search Results"

/-- Python `traverse_info["main_node"] in path` (None is never equal to a
dict, so a `None` main is not found in a path of dict nodes). -/
def mainInPath : Option ANode → List ANode → Bool
  | some m, path => path.contains m
  | none, _ => false

mutual
/-- The inner `traverse(node, path, parent)` of `find_working_node`. -/
def traverseA : ANode → List ANode → Option ANode → TravInfo → TravInfo
  | .mk r nm ty cs, path, parent, ti =>
    if ti.breakRec then ti
    else
      let node := ANode.mk r nm ty cs
      let ti1 := if isMainA node then { ti with mainNode := some node } else ti
      if isMainA node && ti.targetHeader.isSome then { ti1 with breakRec := true }
      else if isHdrA node then
        let ti2 := { ti1 with targetHeader := some node, headerParent := parent }
        if mainInPath ti1.mainNode path then
          { ti2 with mainIsAncestor := true, breakRec := true }
        else traverseLA cs (path ++ [node]) (some node) ti2
      else traverseLA cs (path ++ [node]) (some node) ti1
/-- The `for child in children: traverse(child, path + [node], node)` loop. -/
def traverseLA : List ANode → List ANode → Option ANode → TravInfo → TravInfo
  | [], _, _, ti => ti
  | c :: cs, path, parent, ti => traverseLA cs path parent (traverseA c path parent ti)
end

/-- `find_working_node(tree)`: run the traversal from the root with an empty
path and no parent, then pick the result exactly as lines 48–57 do. -/
def findWorkingNode (t : ANode) : Option ANode :=
  let ti := traverseA t [] none initTI
  match ti.targetHeader with
  | none => ti.mainNode
  | some _ => if !ti.mainIsAncestor then ti.mainNode else ti.headerParent

/-! Specification-side descriptions used to state C3, written from the spec's
vocabulary: the first (preorder) node with role `main`, the first header-role
node whose name contains the target label, the direct parent of a node, and
descendant-of-main. -/

/-- The first node (document order) with role `main`. -/
def firstMainIn (t : ANode) : Option ANode := (preA t).find? isMainA

/-- The first node (document order) matching the header test. -/
def firstHdrIn (t : ANode) : Option ANode := (preA t).find? isHdrA

/-- The first node (document order) having `h` among its direct children:
with `h` occurring once in the tree, this is `h`'s direct parent. -/
def parentIn (t h : ANode) : Option ANode :=
  (preA t).find? (fun n => n.children.contains h)

/-- Is `h` a strict descendant of the `main` landmark node? -/
def descOfMain (t h : ANode) : Bool :=
  match firstMainIn t with
  | some m => strictBelowA h m
  | none => false


/-! ### `extract_information_blocks` (src/utils/a11y_tree.py, lines 60–158)

The Python function builds `parent_map` keyed by `id(node)` and then climbs
from each link.  The embedding works on trees whose nodes are structurally
distinct (as in the fixtures below), so object identity coincides with
structural equality and the parent of `cur` is the unique node whose
`children` list contains `cur` (`parentIn`); the root has no entry, giving
`none`.  Crucially, `seen_block_ids` is initialised as a `set()` (line 69)
but updated with `.append(...)` (lines 127, 146, 152): Python sets have no
`append` method, so the moment any climb reaches a stop condition and emits
its first block, the call raises `AttributeError`.  The embedding therefore
returns that error from every stop condition. -/

/-- Python `node.get("role") == "link" or node.get("type") == "link"`. -/
def isLinkNode (n : ANode) : Bool :=
  n.role == some "link" || n.ty == some "link"

/-- Stop condition 2: the parent has another child (not `cur`) that is a link. -/
def hasOtherLink (p cur : ANode) : Bool :=
  p.children.any (fun child => !(child == cur) && isLinkNode child)

/-- The error raised by `seen_block_ids.append(...)` on a `set`. -/
def setAppendErr : PyErr :=
  .attributeError "set object has no attribute append"

/-- The `while True` climb from one link (lines 118–156), with fuel bounding
the ascent (a parent chain in a finite tree is finite, so fuel `szA root`
never runs out; the fuel-0 branch is unreachable).  Every branch that
appends a block immediately raises via `seen_block_ids.append`. -/
def climbLoop (root : ANode) : Nat → ANode → Except PyErr (List ANode)
  | 0, _ => .error (.typeError "unreachable: parent chains are finite")
  | fuel + 1, cur =>
    let parent := parentIn root cur
    if parent.isNone || cur == root then .error setAppendErr
    else
      match parent with
      | some p =>
        if hasOtherLink p cur then .error setAppendErr
        else if p == root then .error setAppendErr
        else climbLoop root fuel p
      | none => .error setAppendErr

/-- `extract_information_blocks(working_node)`: `prepare_tree` records links
in document order (`all_links`); with no links the loop body never runs and
the function returns `[]`; otherwise the first link's climb reaches a stop
condition and the `seen_block_ids.append` call raises. -/
def extractInformationBlocks (root : ANode) : Except PyErr (List ANode) :=
  match (preA root).filter isLinkNode with
  | [] => .ok []
  | l :: _ => climbLoop root (szA root) l

/-! ### `ElementLocator._extract_informative_nodes` (src/browser/locator.py, lines 212–261)

The inner `collect_text(n, child_texts)` works on Python list objects by
mutation and aliasing: `child_texts.append(...)` mutates the list object
passed in, `collect_text(child, child_texts) + child_texts` builds a fresh
list.  The embedding makes the object store explicit: `HeapT` maps list ids
(indices) to contents, `push` mutates in place, `alloc2` allocates the
concatenation of two existing lists.  `'text' in n.get('role')` raises
`TypeError` when a node has no role (`in` applied to `None`). -/

/-- The store of Python list objects used by `collect_text`. -/
structure HeapT where
  lists : List (List String)
  deriving DecidableEq

/-- In-place `child_texts.append(s)` on list object `i`. -/
def HeapT.push (h : HeapT) (i : Nat) (s : String) : HeapT :=
  ⟨h.lists.set i ((h.lists.getD i []) ++ [s])⟩

/-- `a + b` on list objects `i`, `j`: allocate a fresh list. -/
def HeapT.alloc2 (h : HeapT) (i j : Nat) : Nat × HeapT :=
  (h.lists.length, ⟨h.lists ++ [(h.lists.getD i []) ++ (h.lists.getD j [])]⟩)

/-- Read the contents of list object `i`. -/
def HeapT.read (h : HeapT) (i : Nat) : List String := h.lists.getD i []

/-- `ElementLocator._informative_roles` (membership set; order irrelevant). -/
def informativeRoles : List String :=
  ["article", "section", "paragraph", "listitem", "blockquote",
   "heading", "text", "list", "figure", "img", "link",
   "code", "pre", "table", "row", "cell",
   "definition", "term", "note", "complementary",
   "navigation", "region", "contentinfo", "banner", "text leaf"]

/-- The container roles of line 229. -/
def containerRoles : List String :=
  ["article", "section", "paragraph", "listitem", "blockquote"]

mutual
/-- `collect_text(n, child_texts)` (lines 232–237): `l` is the id of the list
object bound to `child_texts`; returns the id of the returned list object. -/
def collectText : ANode → Nat → HeapT → Except PyErr (Nat × HeapT)
  | .mk r nm _ cs, l, h => do
    let h1 ←
      match r with
      | none => Except.error (PyErr.typeError "argument of type NoneType is not iterable")
      | some rv =>
        if hasSub rv "text" && (nm.getD "") != "" then pure (h.push l (nm.getD ""))
        else pure h
    collectTextL cs l h1
termination_by structural n _ _ => n
/-- The `for child in n.get('children', [])` loop: each iteration rebinds
`child_texts` to the fresh concatenation `collect_text(child, cur) + cur`. -/
def collectTextL : List ANode → Nat → HeapT → Except PyErr (Nat × HeapT)
  | [], l, h => .ok (l, h)
  | c :: cs, l, h => do
    let r1 ← collectText c l h
    let fresh := r1.2.alloc2 r1.1 l
    collectTextL cs fresh.1 fresh.2
termination_by structural l _ _ => l
end

/-- Lines 222–248 of `_extract_informative_nodes`: the record the node
itself emits (`[]` when its role is not informative or its resolved content
is empty; a single two-key dict `{'role': ..., 'contents': ...}` otherwise;
an error when `collect_text` raises on a role-less descendant).  For the
container roles the content is the `collect_text` result joined with
newlines when non-empty, otherwise the stripped own name; for every other
informative role it is the stripped own name. -/
def emitNode : ANode → Except PyErr (List (List (String × String)))
  | .mk r nm ty cs =>
    let name := pyStrip (nm.getD "")
    match r with
    | none => .ok []
    | some role =>
      if informativeRoles.contains role then
        if containerRoles.contains role then
          match collectText (.mk r nm ty cs) 0 ⟨[[]]⟩ with
          | .error e => .error e
          | .ok ret =>
            let childTexts := ret.2.read ret.1
            let content := if childTexts != ([] : List String) then
                             pyJoin "\n" childTexts
                           else name
            .ok (if content != "" then [[("role", role), ("contents", content)]] else [])
        else
          .ok (if name != "" then [[("role", role), ("contents", name)]] else [])
      else .ok []

mutual
/-- `_extract_informative_nodes(node)`: the node's own record is computed
first (lines 222–248, `emitNode`), then the children are processed;
`children_info = child_info + children_info` reverses the child order and
`informative_elements = children_info + informative_elements` puts
descendants before the node itself (lines 250–257). -/
def extractInformativeNodes : ANode → Except PyErr (List (List (String × String)))
  | .mk r nm ty cs => do
    let own ← emitNode (.mk r nm ty cs)
    let childrenInfo ← extractInformativeNodesL cs
    .ok (childrenInfo ++ own)
termination_by structural n => n
/-- The `for child in node.get('children', [])` recursion of lines 250–256. -/
def extractInformativeNodesL : List ANode → Except PyErr (List (List (String × String)))
  | [] => .ok []
  | c :: cs => do
    let i ← extractInformativeNodes c
    let rest ← extractInformativeNodesL cs
    .ok (rest ++ i)
termination_by structural l => l
end

/-! ### `ElementLocator.list_informative_elements` (src/browser/locator.py, lines 56–67)

Line 65 calls `self._extract_informative_nodes(accessibility_tree, [])` with
two positional arguments, but `_extract_informative_nodes` (whose second
parameter is commented out, lines 212–217) accepts only `(cls, node)`:
whenever the snapshot is truthy the call itself raises `TypeError` before
any extraction runs.  A falsy snapshot (None) returns `[]` (lines 61–63). -/
def listInformativeElements (snapshot : Option ANode) :
    Except PyErr (List (List (String × String))) :=
  match snapshot with
  | none => .ok []
  | some _ =>
    .error (.typeError
      "_extract_informative_nodes() takes 2 positional arguments but 3 were given")

/-! ### `ElementLocator.list_interactive_elements` (src/browser/locator.py, lines 69–210)

The browser is abstracted: a `DomElem` carries the raw DOM facts the code
reads through Playwright (tag, attributes, visibility, text, the label of
the closest `<label>` ancestor) plus `matchesSel`, the set of CSS selector
strings from `_interactive_selectors` that match the element; `query`
models `page.locator(sel).all()`.  Values `EVal` are the strings/booleans
stored in an emitted element-info dict.  Notes on the fine points of the
source, which the embedding mirrors:

* line 105: `if not await element.is_visible() and not await element.count():`
  — each `element` is one match returned by `.all()`, so `element.count()`
  is 1 and the `continue` never fires;
* the JS attribute snapshot maps falsy attribute values (`el.id || null`)
  to `null`: `orNull`;
* line 143: `await page.locator(f'label[for=...]')` awaits the result of a
  synchronous method of the async API, raising `TypeError` inside the
  `try` of lines 141–155, so whenever the element has a truthy `id` the
  whole label block is abandoned by `except: pass` and `label` stays
  `None`; only elements without an id reach the `closest('label')` branch;
* line 176 drops `None`-valued keys from the emitted dict;
* `element_id_counter` is incremented but never emitted. -/

/-- A value stored in an emitted element-info dict. -/
inductive EVal where
  | s (v : String)
  | b (v : Bool)
  deriving DecidableEq, Repr

/-- The DOM facts one interactive element exposes to the extraction code. -/
structure DomElem where
  tagName : String
  idAttr : Option String
  nameAttr : Option String
  typeAttr : Option String
  placeholderAttr : Option String
  ariaLabelAttr : Option String
  roleAttr : Option String
  valueAttr : Option String
  hrefAttr : Option String
  titleAttr : Option String
  altAttr : Option String
  classAttr : Option String
  visible : Bool
  enabled : Bool
  innerText : String
  inputValue : String
  closestLabel : Option String
  matchesSel : List String
  deriving DecidableEq

/-- A page, for the interactive extraction: its elements in DOM order. -/
structure PageI where
  elements : List DomElem
  deriving DecidableEq

/-- `page.locator(sel).all()`: the elements matching `sel`, in DOM order. -/
def query (p : PageI) (sel : String) : List DomElem :=
  p.elements.filter (fun e => e.matchesSel.contains sel)

/-- JS `x || null`: empty strings are collapsed to null. -/
def orNull : Option String → Option String
  | some "" => none
  | x => x

/-- A single-quote character (written via its code point). -/
def sqc : String := ⟨[Char.ofNat 39]⟩

/-- `ElementLocator._interactive_selectors`, in source order. -/
def interactiveSelectors : List (String × String) :=
  [("input", "input:not([type=\"hidden\"])"),
   ("textarea", "textarea"),
   ("select", "select"),
   ("button", "button"),
   ("link", "a[href]"),
   ("details", "details"),
   ("summary", "summary"),
   ("aria_button", "[role=\"button\"]"),
   ("aria_link", "[role=\"link\"]"),
   ("aria_textbox", "[role=\"textbox\"]"),
   ("aria_searchbox", "[role=\"searchbox\"]"),
   ("aria_combobox", "[role=\"combobox\"]"),
   ("aria_listbox", "[role=\"listbox\"]"),
   ("aria_option", "[role=\"option\"]"),
   ("aria_checkbox", "[role=\"checkbox\"]"),
   ("aria_radio", "[role=\"radio\"]"),
   ("aria_switch", "[role=\"switch\"]"),
   ("aria_slider", "[role=\"slider\"]"),
   ("aria_spinbutton", "[role=\"spinbutton\"]"),
   ("aria_menuitem", "[role=\"menuitem\"]"),
   ("aria_menuitemcheckbox", "[role=\"menuitemcheckbox\"]"),
   ("aria_menuitemradio", "[role=\"menuitemradio\"]"),
   ("aria_tab", "[role=\"tab\"]"),
   ("clickable_div", "div[onclick]"),
   ("clickable_span", "span[onclick]"),
   ("contenteditable", "[contenteditable=\"true\"]")]

/-- `ElementLocator._generate_selector(element, attributes)` (lines 191–210):
`attrId` and `attrName` are the already-`orNull`ed attribute values. -/
def generateSelector (attrId attrName : Option String) (tagName : String) : String :=
  match attrId with
  | some i => "#" ++ i
  | none =>
    match attrName with
    | some n => tagName ++ "[name=" ++ sqc ++ n ++ sqc ++ "]"
    | none => "unknown"

/-- The body of the inner `for element in elements:` loop (lines 103–181):
`none` is the `continue` of line 106 (never taken, see above); the record is
the `element_info` dict of lines 159–176 in insertion order with `None`
values removed. -/
def processElem (e : DomElem) : Option (List (String × EVal)) :=
  if !e.visible && ((1 : Nat) == 0) then none
  else
    let tag := e.tagName
    let isEnabled := if ["input", "button", "select", "textarea"].contains tag
                     then e.enabled else true
    let contents :=
      if ["input", "textarea"].contains tag then e.inputValue
      else
        let t := e.innerText
        if t.toList.length > 200 then ⟨t.toList.take 197⟩ ++ "..." else t
    let attrId := orNull e.idAttr
    let attrName := orNull e.nameAttr
    let label : Option String :=
      match attrId with
      | some _ => none
      | none =>
        if ["input", "textarea", "select"].contains tag then
          match e.closestLabel with
          | some pl => if pl != "" then some pl else none
          | none => none
        else none
    let sel := generateSelector attrId attrName tag
    let entries : List (String × Option EVal) :=
      [("id", attrId.map EVal.s),
       ("tag_name", some (.s tag)),
       ("contents", some (.s (pyStrip contents))),
       ("label", label.map (fun l => EVal.s (pyStrip l))),
       ("placeholder", (orNull e.placeholderAttr).map EVal.s),
       ("aria_label", (orNull e.ariaLabelAttr).map EVal.s),
       ("role", (orNull e.roleAttr).map EVal.s),
       ("selector", some (.s sel)),
       ("is_enabled", some (.b isEnabled)),
       ("name", attrName.map EVal.s),
       ("href", (orNull e.hrefAttr).map EVal.s),
       ("title", (orNull e.titleAttr).map EVal.s),
       ("input_type", (if tag == "input" then orNull e.typeAttr else none).map EVal.s)]
    some (entries.filterMap (fun kv => kv.2.map (fun v => (kv.1, v))))

/-- `list_interactive_elements(page)`: iterate the selector strategies in
order, appending every processed match; there is no deduplication pass. -/
def listInteractiveElements (p : PageI) : List (List (String × EVal)) :=
  interactiveSelectors.foldl
    (fun acc kv => acc ++ (query p kv.2).filterMap processElem) []

/-- The `selector` fields of an extraction result, in order. -/
def selectorsOf (rs : List (List (String × EVal))) : List String :=
  rs.filterMap (fun r =>
    match List.lookup "selector" r with
    | some (EVal.s v) => some v
    | _ => none)

/-! ### `ElementsCacheManager` (src/services/tools_cache_manager.py)

`_cache_mapping` maps a page url to a `PageCache` record; it is modelled as
an insertion-ordered association list (`CMState`), with `setPC` the Python
dict assignment (update in place, else append).  The four `PageCache`
fields are dicts from element selector to element record.  Python attribute
access is dynamic: `attrClear` models `getattr(pc, a).clear()`, raising
`AttributeError` for an attribute `PageCache` does not define — which is
what `del_info_updates` (line 124) does, asking for `informative_updates`
while the dataclass field is named `info_updates`. -/

/-- An element record stored in a cache map. -/
def ERec := List (String × EVal)
deriving instance DecidableEq for ERec

/-- The `PageCache` dataclass (lines 9–19). -/
structure PageCacheM where
  interactiveCache : List (String × ERec)
  informativeCache : List (String × ERec)
  infoUpdates : List (String × ERec)
  interactiveUpdates : List (String × ERec)
  deriving DecidableEq

/-- `PageCache()`: all four dicts empty. -/
def emptyPageCache : PageCacheM := ⟨[], [], [], []⟩

/-- `PageCache.clear_cache` (lines 18–19): clears the interactive map only. -/
def PageCacheM.clearCache (pc : PageCacheM) : PageCacheM :=
  { pc with interactiveCache := [] }

/-- `getattr(pc, a).clear()` on a `PageCache`: the four defined dict
attributes are emptied in place; any other name raises `AttributeError`. -/
def PageCacheM.attrClear (pc : PageCacheM) : String → Except PyErr PageCacheM
  | "interactive_cache" => .ok { pc with interactiveCache := [] }
  | "informative_cache" => .ok { pc with informativeCache := [] }
  | "info_updates" => .ok { pc with infoUpdates := [] }
  | "interactive_updates" => .ok { pc with interactiveUpdates := [] }
  | a => .error (.attributeError ("PageCache object has no attribute " ++ a))

/-- The `_cache_mapping` dict of the singleton manager. -/
def CMState := List (String × PageCacheM)
deriving instance DecidableEq for CMState

/-- `self._cache_mapping[url] = pc` (update in place, else append). -/
def setPC : CMState → String → PageCacheM → CMState
  | [], url, pc => [(url, pc)]
  | (k, v) :: rest, url, pc =>
    if k == url then (k, pc) :: rest else (k, v) :: setPC rest url pc

/-- `get_cache(page_url)` (lines 43–47): `None` on a miss, else the
interactive map. -/
def getCache (url : String) (st : CMState) : Option (List (String × ERec)) :=
  (List.lookup url st).map PageCacheM.interactiveCache

/-- `get_element(page_url, element_selector)` (lines 81–85): a throwaway
default `PageCache()` covers the miss, so the result is `None`, never an
error. -/
def getElement (url sel : String) (st : CMState) : Option ERec :=
  List.lookup sel ((List.lookup url st).getD emptyPageCache).interactiveCache

/-- `get_info_updates(page_url)` (lines 87–91): `self._cache_mapping.get(page_url)`
has no default, so a never-observed url yields `None` and the `.info_updates`
access raises `AttributeError`. -/
def getInfoUpdates (url : String) (st : CMState) :
    Except PyErr (List (String × ERec)) :=
  match List.lookup url st with
  | some pc => .ok pc.infoUpdates
  | none => .error (.attributeError "NoneType object has no attribute info_updates")

/-- `get_interactive_updates(page_url)` (lines 93–97): same missing default. -/
def getInteractiveUpdates (url : String) (st : CMState) :
    Except PyErr (List (String × ERec)) :=
  match List.lookup url st with
  | some pc => .ok pc.interactiveUpdates
  | none => .error (.attributeError "NoneType object has no attribute interactive_updates")

/-- `del_info_updates(page_url)` (lines 123–124): reads the non-existent
attribute `informative_updates` (the field is `info_updates`), raising
`AttributeError` whether or not the url is present. -/
def delInfoUpdates (url : String) (st : CMState) : Except PyErr CMState :=
  match List.lookup url st with
  | some pc => do
    let pc2 ← pc.attrClear "informative_updates"
    .ok (setPC st url pc2)
  | none => do
    let _ ← emptyPageCache.attrClear "informative_updates"
    .ok st

/-- `del_interactve_updates(page_url)` (lines 126–127): clears the
`interactive_updates` dict of the record (a throwaway default on a miss). -/
def delInteractveUpdates (url : String) (st : CMState) : Except PyErr CMState :=
  match List.lookup url st with
  | some pc => do
    let pc2 ← pc.attrClear "interactive_updates"
    .ok (setPC st url pc2)
  | none => do
    let _ ← emptyPageCache.attrClear "interactive_updates"
    .ok st

/-- `set_interactive_cache(page_url, interactive_cache)` (lines 49–57):
ensure the record exists, clear that side's updates, install the map. -/
def setInteractiveCache (url : String) (m : List (String × ERec)) (st : CMState) :
    Except PyErr CMState := do
  let st1 := if (List.lookup url st).isNone then setPC st url emptyPageCache else st
  let st2 ← delInteractveUpdates url st1
  match List.lookup url st2 with
  | some pc => .ok (setPC st2 url { pc with interactiveCache := m })
  | none => .ok st2

/-- `set_informative_cache(page_url, informative_cache)` (lines 59–67):
ensure the record exists, call `del_info_updates`, install the map. -/
def setInformativeCache (url : String) (m : List (String × ERec)) (st : CMState) :
    Except PyErr CMState := do
  let st1 := if (List.lookup url st).isNone then setPC st url emptyPageCache else st
  let st2 ← delInfoUpdates url st1
  match List.lookup url st2 with
  | some pc => .ok (setPC st2 url { pc with informativeCache := m })
  | none => .ok st2

/-- `clear_interactive_cache(page_url)` (lines 69–73): clear the interactive
map in place; on a miss the throwaway default `PageCache()` is cleared and
discarded. -/
def clearInteractiveCache (url : String) (st : CMState) : CMState :=
  match List.lookup url st with
  | some pc => setPC st url { pc with interactiveCache := [] }
  | none => st

/-- `clear_informative_cache(page_url)` (lines 75–79). -/
def clearInformativeCache (url : String) (st : CMState) : CMState :=
  match List.lookup url st with
  | some pc => setPC st url { pc with informativeCache := [] }
  | none => st

/-- The page object handed to `track_dom_changes`: its url, the
accessibility snapshot (for the informative side) and the DOM view (for the
interactive side). -/
structure PageT where
  url : String
  snapshot : Option ANode
  pg : PageI

/-- `track_dom_changes(page)` (lines 99–121).  Line 104 calls the `async`
`list_informative_elements` without awaiting it; granting the call its
awaited value, it raises `TypeError` for every truthy snapshot (see
`listInformativeElements`), which propagates (there is no handler).  Even
with a falsy snapshot, line 107 applies `.values()` to `info_cache`, which
is a Python *list* (and at run time in fact a coroutine), not a dict —
`AttributeError`.  The diff/update logic of lines 107–121 is therefore
unreachable on every input. -/
def trackDomChanges (page : PageT) (st : CMState) : Except PyErr CMState := do
  let st1 := if (List.lookup page.url st).isNone
             then setPC st page.url emptyPageCache else st
  let infoCache ← listInformativeElements page.snapshot
  let interCache := listInteractiveElements page.pg
  let _ := (st1, infoCache, interCache)
  Except.error (.attributeError "list object has no attribute values")

/-! ### Helper lemmas -/

theorem except_bind_error {ε α β : Type} (e : ε) (f : α → Except ε β) :
    (Except.error e >>= f) = Except.error e := rfl

theorem lookup_setPC_self : ∀ (st : CMState) (url : String) (pc : PageCacheM),
    List.lookup url (setPC st url pc) = some pc
  | [], url, pc => by simp [setPC, List.lookup]
  | (k, v) :: rest, url, pc => by
    by_cases h : k = url
    · subst h
      simp [setPC, List.lookup]
    · have hb : (k == url) = false := beq_eq_false_iff_ne.2 h
      have hb2 : (url == k) = false := beq_eq_false_iff_ne.2 (Ne.symm h)
      simp [setPC, hb, List.lookup, hb2, lookup_setPC_self rest url pc]

theorem delInfoUpdates_always_raises (url : String) (st : CMState) :
    delInfoUpdates url st =
      Except.error (.attributeError "PageCache object has no attribute informative_updates") := by
  rcases h : List.lookup url st with _ | pc <;>
    simp [delInfoUpdates, h, PageCacheM.attrClear, except_bind_error]

/-! ### C1 -/

/-- C1: `track_dom_changes` never reaches the state where each side's
updates bucket holds exactly the new-snapshot delta — the call raises on
every input (`TypeError` from the mis-called `_extract_informative_nodes`
for a truthy snapshot, otherwise `AttributeError` from `.values()` on a
list), so the claimed post-state is unreachable. -/
theorem c1_track_dom_changes_always_raises (page : PageT) (st : CMState) :
    ∃ e, trackDomChanges page st = Except.error e := by
  obtain ⟨url, snap, pg⟩ := page
  cases snap with
  | none =>
    exact ⟨.attributeError "list object has no attribute values", rfl⟩
  | some t =>
    exact ⟨.typeError "_extract_informative_nodes() takes 2 positional arguments but 3 were given", rfl⟩

/-! ### C2 -/

def c2Link1 : ANode := .mk (some "link") (some "L1") none []
def c2Link2 : ANode := .mk (some "link") (some "L2") none []
def c2Link3 : ANode := .mk (some "link") (some "L3") none []
def c2Cont1 : ANode := .mk (some "generic") (some "c1") none
  [c2Link1, .mk (some "text") (some "t1") none []]
def c2Cont2 : ANode := .mk (some "generic") (some "c2") none
  [c2Link2, .mk (some "text") (some "t2") none []]
def c2Cont3 : ANode := .mk (some "generic") (some "c3") none
  [c2Link3, .mk (some "text") (some "t3") none []]

/-- The spec's block-grouping fixture: a `main` node with three sibling
containers, each holding one link leaf and some text. -/
def c2Fixture : ANode := .mk (some "main") none none [c2Cont1, c2Cont2, c2Cont3]

/-- C2: on the spec's own fixture (which should yield exactly the three
sibling containers), `extract_information_blocks` raises `AttributeError`
the moment the first block is found, because `seen_block_ids` is a `set`
but is updated with `.append`; no de-duplicated block list is ever
returned. -/
theorem c2_extract_blocks_raises_on_fixture :
    extractInformationBlocks c2Fixture = Except.error setAppendErr := by rfl

/-! ### C4 -/

/-- C4: the informative half of the extraction pipeline is fatal on every
page whose accessibility snapshot is truthy: `list_informative_elements`
passes two positional arguments to `_extract_informative_nodes`, which
accepts only one, so the call raises `TypeError` instead of degrading to
fewer elements. -/
theorem c4_list_informative_always_raises (t : ANode) :
    listInformativeElements (some t) =
      Except.error (.typeError
        "_extract_informative_nodes() takes 2 positional arguments but 3 were given") := rfl

/-! ### C5 -/

/-- C5: `set_informative_cache` never installs the map: it first calls
`del_info_updates`, which reads the non-existent `PageCache` attribute
`informative_updates` (the field is `info_updates`) and raises
`AttributeError` for every url, map and manager state. -/
theorem c5_set_informative_cache_always_raises (url : String)
    (m : List (String × ERec)) (st : CMState) :
    setInformativeCache url m st =
      Except.error (.attributeError "PageCache object has no attribute informative_updates") := by
  simp [setInformativeCache, delInfoUpdates_always_raises, except_bind_error]

/-! ### C7 -/

/-- C7: the resolved content of a container node is not the concatenation
of its descendant plain-text leaf names taken once each: for a `paragraph`
with a single text leaf named `a`, the aliasing in `collect_text`
(`child_texts = collect_text(child, child_texts) + child_texts`, where the
callee mutates and returns the same list object) duplicates the leaf and
the emitted contents are `"a\na"`, not `"a"`. -/
theorem c7_container_contents_duplicates_leaf :
    extractInformativeNodes (ANode.mk (some "paragraph") (some "") none
        [ANode.mk (some "text") (some "a") none []]) =
      Except.ok [[("role", "text"), ("contents", "a")],
                 [("role", "paragraph"), ("contents", "a\na")]] := by rfl

/-! ### C8 -/

/-- C8: for a never-observed url, `get_cache` and `get_element` return an
explicit absent result, but draining either updates bucket raises
`AttributeError` (`self._cache_mapping.get(page_url)` has no default and
`None` has no `info_updates`/`interactive_updates` attribute). -/
theorem c8_cache_miss_behaviour (url sel : String) (st : CMState)
    (h : List.lookup url st = none) :
    getCache url st = none ∧
    getElement url sel st = none ∧
    getInfoUpdates url st =
      Except.error (.attributeError "NoneType object has no attribute info_updates") ∧
    getInteractiveUpdates url st =
      Except.error (.attributeError "NoneType object has no attribute interactive_updates") := by
  refine ⟨?_, ?_, ?_, ?_⟩ <;>
    simp [getCache, getElement, getInfoUpdates, getInteractiveUpdates, h,
      emptyPageCache, List.lookup]

theorem c8_cache_miss_behaviour_witness :
    getCache "https://u" [] = none ∧
    getElement "https://u" "#s" [] = none ∧
    getInfoUpdates "https://u" [] =
      Except.error (.attributeError "NoneType object has no attribute info_updates") ∧
    getInteractiveUpdates "https://u" [] =
      Except.error (.attributeError "NoneType object has no attribute interactive_updates") :=
  c8_cache_miss_behaviour "https://u" "#s" [] rfl

/-! ### C9 -/

def c9Rec : ERec := [("role", EVal.s "x")]

def c9PC : PageCacheM := ⟨[("#s", c9Rec)], [("i", c9Rec)], [], []⟩

def c9State : CMState := [("u", c9PC)]

/-- C9 counterexample: after `clear_interactive_cache("u")` on a record
whose informative map is non-empty, the informative map is still non-empty
— the claim that `clear` empties both maps fails at this input. -/
theorem c9_clear_counterexample :
    ¬ ((List.lookup "u" (clearInteractiveCache "u" c9State)).map
        PageCacheM.informativeCache = some []) := by decide

/-- C9 amended: `clear_interactive_cache(url)` empties only the interactive
baseline map of an existing record; the informative map is untouched and
the `PageCache` record itself remains present. -/
theorem c9_clear_interactive_only (url : String) (st : CMState) (pc : PageCacheM)
    (h : List.lookup url st = some pc) :
    List.lookup url (clearInteractiveCache url st) =
      some { pc with interactiveCache := [] } := by
  simp [clearInteractiveCache, h, lookup_setPC_self]

theorem c9_clear_interactive_only_witness :
    List.lookup "u" (clearInteractiveCache "u" c9State) =
      some { c9PC with interactiveCache := [] } :=
  c9_clear_interactive_only "u" c9State c9PC rfl

/-! ### C10 -/

theorem except_bind_ok {ε α β : Type} {x : Except ε α} {f : α → Except ε β} {b : β}
    (h : (x >>= f) = .ok b) : ∃ a, x = .ok a ∧ f a = .ok b := by
  cases x with
  | error e => simp [except_bind_error] at h
  | ok a => exact ⟨a, rfl, h⟩

theorem emitNode_shape (t : ANode) (own : List (List (String × String)))
    (h : emitNode t = .ok own) :
    ∀ r ∈ own, r.map Prod.fst = ["role", "contents"] ∧
      List.lookup "selector" r = none := by
  obtain ⟨ro, nm, ty, cs⟩ := t
  intro r hr
  cases ro with
  | none =>
    simp only [emitNode.eq_def, Except.ok.injEq] at h
    rw [← h] at hr
    exact absurd hr (List.not_mem_nil r)
  | some role =>
    simp only [emitNode.eq_def] at h
    by_cases h1 : informativeRoles.contains role
    · rw [if_pos h1] at h
      by_cases h2 : containerRoles.contains role
      · rw [if_pos h2] at h
        rcases hc : collectText (ANode.mk (some role) nm ty cs) 0 ⟨[[]]⟩ with e | ret
        · rw [hc] at h
          exact absurd h (by simp)
        · rw [hc] at h
          simp only [Except.ok.injEq] at h
          rw [← h] at hr
          by_cases h3 : (if (ret.2.read ret.1) != ([] : List String) then
              pyJoin "\n" (ret.2.read ret.1) else pyStrip (nm.getD "")) != ""
          · rw [if_pos h3] at hr
            rw [List.mem_singleton.1 hr]
            exact ⟨rfl, rfl⟩
          · rw [if_neg h3] at hr
            exact absurd hr (List.not_mem_nil r)
      · rw [if_neg h2] at h
        simp only [Except.ok.injEq] at h
        rw [← h] at hr
        by_cases h3 : pyStrip (nm.getD "") != ""
        · rw [if_pos h3] at hr
          rw [List.mem_singleton.1 hr]
          exact ⟨rfl, rfl⟩
        · rw [if_neg h3] at hr
          exact absurd hr (List.not_mem_nil r)
    · rw [if_neg h1] at h
      simp only [Except.ok.injEq] at h
      rw [← h] at hr
      exact absurd hr (List.not_mem_nil r)

mutual
theorem c10auxA : ∀ (t : ANode) (l : List (List (String × String))),
    extractInformativeNodes t = Except.ok l →
    ∀ r ∈ l, r.map Prod.fst = ["role", "contents"] ∧ List.lookup "selector" r = none
  | .mk ro nm ty cs, l, h, r, hr => by
    rw [extractInformativeNodes.eq_def] at h
    obtain ⟨own, h1, h2⟩ := except_bind_ok h
    obtain ⟨ci, h3, h4⟩ := except_bind_ok h2
    have hl : l = ci ++ own := by
      simp only [Except.ok.injEq] at h4
      exact h4.symm
    subst hl
    rcases List.mem_append.1 hr with hmem | hmem
    · exact c10auxL cs ci h3 r hmem
    · exact emitNode_shape _ own h1 r hmem
theorem c10auxL : ∀ (cs : List ANode) (l : List (List (String × String))),
    extractInformativeNodesL cs = Except.ok l →
    ∀ r ∈ l, r.map Prod.fst = ["role", "contents"] ∧ List.lookup "selector" r = none
  | [], l, h, r, hr => by
    rw [extractInformativeNodesL.eq_def] at h
    simp only [Except.ok.injEq] at h
    rw [← h] at hr
    exact absurd hr (List.not_mem_nil r)
  | c :: cs, l, h, r, hr => by
    rw [extractInformativeNodesL.eq_def] at h
    obtain ⟨i, h1, h2⟩ := except_bind_ok h
    obtain ⟨rest, h3, h4⟩ := except_bind_ok h2
    have hl : l = rest ++ i := by
      simp only [Except.ok.injEq] at h4
      exact h4.symm
    subst hl
    rcases List.mem_append.1 hr with hmem | hmem
    · exact c10auxL cs rest h3 r hmem
    · exact c10auxA c i h1 r hmem
end

/-- C10: every record emitted by `_extract_informative_nodes` is exactly the
two-field dict `{'role': ..., 'contents': ...}`: its key list is
`["role", "contents"]` and in particular a `'selector'` lookup (the key
`track_dom_changes` uses to bucket informative updates) finds nothing. -/
theorem c10_informative_records_have_no_selector (t : ANode)
    (l : List (List (String × String)))
    (h : extractInformativeNodes t = Except.ok l) :
    ∀ r ∈ l, r.map Prod.fst = ["role", "contents"] ∧
      List.lookup "selector" r = none :=
  c10auxA t l h

theorem c10_informative_records_have_no_selector_witness :
    List.map Prod.fst [("role", "text"), ("contents", "hello")] = ["role", "contents"] ∧
    List.lookup "selector" [("role", "text"), ("contents", "hello")] = none :=
  c10_informative_records_have_no_selector
    (ANode.mk (some "text") (some "hello") none []) _ rfl
    [("role", "text"), ("contents", "hello")] (List.mem_singleton.2 rfl)

/-! ### C6 -/

theorem lookup_entries (key : String) (v : EVal) (ks rest : List (String × Option EVal))
    (hks : ∀ kv ∈ ks, kv.1 ≠ key) :
    List.lookup key ((ks ++ (key, some v) :: rest).filterMap
      (fun kv => kv.2.map (fun x => (kv.1, x)))) = some v := by
  induction ks with
  | nil => simp [List.filterMap_cons, List.lookup]
  | cons hd tl ih =>
    have hne : hd.1 ≠ key := hks hd (List.mem_cons_self hd tl)
    have htl : ∀ kv ∈ tl, kv.1 ≠ key := fun kv hkv => hks kv (List.mem_cons_of_mem hd hkv)
    rcases ho : hd.2 with _ | x
    · simpa [List.filterMap_cons, ho] using ih htl
    · simpa [List.filterMap_cons, ho, List.lookup,
        beq_eq_false_iff_ne.2 (Ne.symm hne)] using ih htl

/-- The selector the code generates for one processed element. -/
def genSelOf (e : DomElem) : String :=
  generateSelector (orNull e.idAttr) (orNull e.nameAttr) e.tagName

theorem processElem_selector (e : DomElem) :
    ∃ r, processElem e = some r ∧
      List.lookup "selector" r = some (EVal.s (genSelOf e)) := by
  have h10 : ((1 : Nat) == 0) = false := rfl
  simp only [processElem, h10, Bool.and_false, Bool.false_eq_true, if_false]
  refine ⟨_, rfl, ?_⟩
  exact lookup_entries "selector" _
    [("id", (orNull e.idAttr).map EVal.s),
     ("tag_name", some (EVal.s e.tagName)),
     ("contents", some (EVal.s (pyStrip (if ["input", "textarea"].contains e.tagName
        then e.inputValue
        else if e.innerText.toList.length > 200
             then (⟨e.innerText.toList.take 197⟩ : String) ++ "..." else e.innerText)))),
     ("label", (match orNull e.idAttr with
       | some _ => none
       | none =>
         if ["input", "textarea", "select"].contains e.tagName then
           match e.closestLabel with
           | some pl => if pl != "" then some pl else none
           | none => none
         else none).map (fun l => EVal.s (pyStrip l))),
     ("placeholder", (orNull e.placeholderAttr).map EVal.s),
     ("aria_label", (orNull e.ariaLabelAttr).map EVal.s),
     ("role", (orNull e.roleAttr).map EVal.s)]
    [("is_enabled", some (EVal.b (if ["input", "button", "select", "textarea"].contains e.tagName
        then e.enabled else true))),
     ("name", (orNull e.nameAttr).map EVal.s),
     ("href", (orNull e.hrefAttr).map EVal.s),
     ("title", (orNull e.titleAttr).map EVal.s),
     ("input_type", (if e.tagName == "input" then orNull e.typeAttr else none).map EVal.s)]
    (by
      intro kv hkv
      simp only [List.mem_cons, List.not_mem_nil, or_false] at hkv
      rcases hkv with h | h | h | h | h | h | h <;> subst h <;> simp)

/-- One emission per strategy: `per-match` records of one `query` result. -/
theorem selectorsOf_filterMap (es : List DomElem) :
    selectorsOf (es.filterMap processElem) = es.map genSelOf := by
  induction es with
  | nil => rfl
  | cons e es ih =>
    obtain ⟨r, hr, hsel⟩ := processElem_selector e
    simp only [List.filterMap_cons, hr, selectorsOf] at ih ⊢
    simp [hsel, ih]

theorem selectorsOf_append (a b : List (List (String × EVal))) :
    selectorsOf (a ++ b) = selectorsOf a ++ selectorsOf b := by
  simp [selectorsOf, List.filterMap_append]

theorem foldl_strategies (p : PageI) :
    ∀ (sels : List (String × String)) (acc : List (List (String × EVal))),
    sels.foldl (fun a kv => a ++ (query p kv.2).filterMap processElem) acc =
      acc ++ (sels.map (fun kv => (query p kv.2).filterMap processElem)).flatten := by
  intro sels
  induction sels with
  | nil => intro acc; simp
  | cons kv sels ih =>
    intro acc
    simp only [List.foldl_cons, List.map_cons, List.flatten_cons]
    rw [ih (acc ++ (query p kv.2).filterMap processElem), List.append_assoc]

/-- C6 amended: `list_interactive_elements` never deduplicates — the
selector fields of its result are exactly, in order, one generated selector
per (strategy, matching element) occurrence; an element matched by several
strategies (or several elements generating the same fallback selector)
yields repeated selectors in one extraction result. -/
theorem c6_selectors_one_per_occurrence (p : PageI) :
    selectorsOf (listInteractiveElements p) =
      (interactiveSelectors.map (fun kv => (query p kv.2).map genSelOf)).flatten := by
  rw [listInteractiveElements, foldl_strategies p interactiveSelectors []]
  generalize interactiveSelectors = sels
  induction sels with
  | nil => rfl
  | cons kv sels ih =>
    simp only [List.map_cons, List.flatten_cons, List.nil_append] at ih ⊢
    rw [selectorsOf_append, selectorsOf_filterMap, ih]

/-- A visible button carrying both the `button` tag and `role="button"`,
with DOM id `x`: it is matched by two selector strategies. -/
def c6Elem : DomElem :=
  { tagName := "button", idAttr := some "x", nameAttr := none, typeAttr := none,
    placeholderAttr := none, ariaLabelAttr := none, roleAttr := some "button",
    valueAttr := none, hrefAttr := none, titleAttr := none, altAttr := none,
    classAttr := none, visible := true, enabled := true, innerText := "Go",
    inputValue := "", closestLabel := none,
    matchesSel := ["button", "[role=\"button\"]"] }

def c6Page : PageI := ⟨[c6Elem]⟩

/-- C6 counterexample: on `c6Page` the extraction result carries the
selector `#x` twice — selectors within one extraction result are not
unique, so no deduplication pass exists. -/
theorem c6_duplicate_selectors :
    ¬ (selectorsOf (listInteractiveElements c6Page)).Nodup := by
  have h : selectorsOf (listInteractiveElements c6Page) = ["#x", "#x"] := by rfl
  rw [h]
  simp

/-! ### C3: machinery

The stateful traversal of `find_working_node` is flattened to a fold: the
tree is linearised to its entry list (node, ancestor path, parent) in
document order (`pwpA`), and `stepT` performs one node's worth of the
traversal body (no recursion).  `travA_flat` proves the recursive traversal
equal to the fold, after which the three cases of C3 are settled by fold
invariants. -/

mutual
/-- Entry list of a traversal: each node with the `path` and `parent`
arguments `traverse` receives it with, in document order. -/
def pwpA : ANode → List ANode → Option ANode → List (ANode × List ANode × Option ANode)
  | .mk r n t c, path, parent =>
    (ANode.mk r n t c, path, parent) ::
      pwpLA c (path ++ [ANode.mk r n t c]) (some (ANode.mk r n t c))

/-- Entry lists of a sibling list. -/
def pwpLA : List ANode → List ANode → Option ANode → List (ANode × List ANode × Option ANode)
  | [], _, _ => []
  | a :: as, path, parent => pwpA a path parent ++ pwpLA as path parent
end

mutual
theorem pwpA_eq : ∀ (r n t : Option String) (c : List ANode) (path : List ANode)
    (parent : Option ANode),
    pwpA (.mk r n t c) path parent =
      (ANode.mk r n t c, path, parent) ::
        pwpLA c (path ++ [ANode.mk r n t c]) (some (ANode.mk r n t c))
  | r, n, t, c, path, parent => by rw [pwpA]
theorem pwpLA_eq : ∀ (a : ANode) (as : List ANode) (path : List ANode)
    (parent : Option ANode),
    pwpLA (a :: as) path parent = pwpA a path parent ++ pwpLA as path parent
  | a, as, path, parent => by rw [pwpLA]
end

theorem pwpLA_nil (path : List ANode) (parent : Option ANode) :
    pwpLA [] path parent = [] := by rw [pwpLA]

/-- One node's worth of the traversal body (lines 19–36 of the source),
with the recursion removed: children are handled by later entries. -/
def stepT (ti : TravInfo) (e : ANode × List ANode × Option ANode) : TravInfo :=
  if ti.breakRec then ti
  else
    let node := e.1
    let path := e.2.1
    let parent := e.2.2
    let ti1 := if isMainA node then { ti with mainNode := some node } else ti
    if isMainA node && ti.targetHeader.isSome then { ti1 with breakRec := true }
    else if isHdrA node then
      let ti2 := { ti1 with targetHeader := some node, headerParent := parent }
      if mainInPath ti1.mainNode path then
        { ti2 with mainIsAncestor := true, breakRec := true }
      else ti2
    else ti1

theorem foldl_break : ∀ (l : List (ANode × List ANode × Option ANode)) (ti : TravInfo),
    ti.breakRec = true → l.foldl stepT ti = ti
  | [], ti, _ => rfl
  | e :: l, ti, h => by
    rw [List.foldl_cons]
    have hs : stepT ti e = ti := by rw [stepT, if_pos h]
    rw [hs]
    exact foldl_break l ti h

mutual
theorem travA_flat : ∀ (a : ANode) (path : List ANode)
    (parent : Option ANode) (ti : TravInfo),
    traverseA a path parent ti = (pwpA a path parent).foldl stepT ti
  | .mk r n t c, path, parent, ti => by
    rw [traverseA, pwpA_eq, List.foldl_cons]
    by_cases hb : ti.breakRec = true
    · rw [if_pos hb]
      have hs : stepT ti (ANode.mk r n t c, path, parent) = ti := by
        rw [stepT, if_pos hb]
      rw [hs, foldl_break _ ti hb]
    · rw [if_neg hb]
      have hstep : stepT ti (ANode.mk r n t c, path, parent) =
          (let node := ANode.mk r n t c
           let ti1 := if isMainA node then { ti with mainNode := some node } else ti
           if isMainA node && ti.targetHeader.isSome then { ti1 with breakRec := true }
           else if isHdrA node then
             let ti2 := { ti1 with targetHeader := some node, headerParent := parent }
             if mainInPath ti1.mainNode path then
               { ti2 with mainIsAncestor := true, breakRec := true }
             else ti2
           else ti1) := by
        rw [stepT, if_neg hb]
      rw [hstep]
      dsimp only
      by_cases h1 : (isMainA (ANode.mk r n t c) && ti.targetHeader.isSome) = true
      · rw [if_pos h1, if_pos h1, foldl_break]
        rfl
      · rw [if_neg h1, if_neg h1]
        by_cases h2 : isHdrA (ANode.mk r n t c) = true
        · rw [if_pos h2, if_pos h2]
          by_cases h3 : mainInPath (if isMainA (ANode.mk r n t c) then
              { ti with mainNode := some (ANode.mk r n t c) } else ti).mainNode path = true
          · rw [if_pos h3, if_pos h3, foldl_break]
            rfl
          · rw [if_neg h3, if_neg h3]
            exact travLA_flat c (path ++ [ANode.mk r n t c]) (some (ANode.mk r n t c)) _
        · rw [if_neg h2, if_neg h2]
          exact travLA_flat c (path ++ [ANode.mk r n t c]) (some (ANode.mk r n t c)) _
theorem travLA_flat : ∀ (cs : List ANode) (path : List ANode)
    (parent : Option ANode) (ti : TravInfo),
    traverseLA cs path parent ti = (pwpLA cs path parent).foldl stepT ti
  | [], path, parent, ti => by rw [traverseLA, pwpLA_nil]; rfl
  | c :: cs, path, parent, ti => by
    rw [traverseLA, pwpLA_eq, List.foldl_append, ← travA_flat c path parent ti]
    exact travLA_flat cs path parent _
end

/-- The running "last `main` seen wins" update of `traverse_info["main_node"]`. -/
def lastMainUpd (m : Option ANode) (ns : List ANode) : Option ANode :=
  ns.foldl (fun acc x => if isMainA x then some x else acc) m

theorem lastMainUpd_nil (m : Option ANode) : lastMainUpd m [] = m := rfl

theorem lastMainUpd_cons (m : Option ANode) (x : ANode) (ns : List ANode) :
    lastMainUpd m (x :: ns) = lastMainUpd (if isMainA x then some x else m) ns := rfl

theorem lastMainUpd_no_main : ∀ (ns : List ANode) (m : Option ANode),
    (∀ x ∈ ns, isMainA x = false) → lastMainUpd m ns = m
  | [], m, _ => rfl
  | x :: ns, m, h => by
    rw [lastMainUpd_cons, if_neg (by simp [h x (List.mem_cons_self x ns)])]
    exact lastMainUpd_no_main ns m fun y hy => h y (List.mem_cons_of_mem x hy)

theorem lastMainUpd_eq_find : ∀ (ns : List ANode),
    ns.countP isMainA ≤ 1 → lastMainUpd none ns = ns.find? isMainA
  | [], _ => rfl
  | x :: ns, hc => by
    rw [List.countP_cons] at hc
    rw [lastMainUpd_cons]
    rcases hx : isMainA x with _ | _
    · rw [if_neg (by simp [hx]), List.find?_cons_of_neg _ (by simp [hx])]
      exact lastMainUpd_eq_find ns (by omega)
    · rw [if_pos rfl, List.find?_cons_of_pos _ hx]
      have hz : ns.countP isMainA = 0 := by
        rw [hx, if_pos rfl] at hc
        omega
      exact lastMainUpd_no_main ns (some x)
        fun y hy => by
          have := List.countP_eq_zero.1 hz y hy
          simpa using this

/-- A fold over header-free entries, starting with no target and no break:
only `main_node` moves (to the last `main` seen). -/
theorem foldl_noHdr : ∀ (l : List (ANode × List ANode × Option ANode)) (ti : TravInfo),
    ti.breakRec = false → ti.targetHeader = none →
    (∀ e ∈ l, isHdrA e.1 = false) →
    l.foldl stepT ti = { ti with mainNode := lastMainUpd ti.mainNode (l.map Prod.fst) }
  | [], ti, _, _, _ => by cases ti; rfl
  | e :: l, ti, hb, ht, hl => by
    have he : isHdrA e.1 = false := hl e (List.mem_cons_self e l)
    have hrest : ∀ x ∈ l, isHdrA x.1 = false := fun x hx => hl x (List.mem_cons_of_mem e hx)
    rw [List.foldl_cons, List.map_cons, lastMainUpd_cons]
    have hstep : stepT ti e = if isMainA e.1 then { ti with mainNode := some e.1 } else ti := by
      rw [stepT, if_neg (by simp [hb])]
      rw [if_neg (by simp [ht]), if_neg (by simp [he])]
    rw [hstep]
    rcases hx : isMainA e.1 with _ | _
    · rw [if_neg (by simp [hx]), if_neg (by simp [hx])]
      exact foldl_noHdr l ti hb ht hrest
    · rw [if_pos rfl, if_pos rfl]
      exact foldl_noHdr l { ti with mainNode := some e.1 } hb ht hrest

/-- A fold over header-free entries after the target header is set and no
break yet: the first `main` seen is recorded and breaks the traversal. -/
theorem foldl_tgtSet : ∀ (l : List (ANode × List ANode × Option ANode)) (ti : TravInfo),
    ti.breakRec = false → ti.targetHeader.isSome = true →
    (∀ e ∈ l, isHdrA e.1 = false) →
    l.foldl stepT ti = (match (l.map Prod.fst).find? isMainA with
      | some m => { ti with mainNode := some m, breakRec := true }
      | none => ti)
  | [], ti, _, _, _ => by rfl
  | e :: l, ti, hb, ht, hl => by
    have he : isHdrA e.1 = false := hl e (List.mem_cons_self e l)
    have hrest : ∀ x ∈ l, isHdrA x.1 = false := fun x hx => hl x (List.mem_cons_of_mem e hx)
    rw [List.foldl_cons, List.map_cons]
    rcases hx : isMainA e.1 with _ | _
    · have hstep : stepT ti e = ti := by
        rw [stepT, if_neg (by simp [hb])]
        rw [if_neg (by simp [hx]), if_neg (by simp [he]), if_neg (by simp [hx])]
      rw [hstep, List.find?_cons_of_neg _ (by simp [hx])]
      exact foldl_tgtSet l ti hb ht hrest
    · have hstep : stepT ti e = { ti with mainNode := some e.1, breakRec := true } := by
        rw [stepT, if_neg (by simp [hb])]
        rw [if_pos (by simp [hx, ht]), if_pos hx]
      rw [hstep, List.find?_cons_of_pos _ hx, foldl_break _ _ rfl]

/-! Generic list lemmas used by the C3 argument. -/

theorem find_decomp {α : Type} (p : α → Bool) : ∀ (l : List α) (a : α),
    l.find? p = some a → ∃ l1 l2, l = l1 ++ a :: l2 ∧ ∀ x ∈ l1, p x = false
  | [], a, h => by simp [List.find?] at h
  | b :: l, a, h => by
    rcases hb : p b with _ | _
    · rw [List.find?_cons_of_neg _ (by simp [hb])] at h
      obtain ⟨l1, l2, hsplit, hall⟩ := find_decomp p l a h
      exact ⟨b :: l1, l2, by rw [hsplit]; rfl,
        fun x hx => by
          rcases List.mem_cons.1 hx with hxx | hxx
          · rw [hxx]; exact hb
          · exact hall x hxx⟩
    · rw [List.find?_cons_of_pos _ hb] at h
      injection h with h
      exact ⟨[], l, by rw [h]; rfl, by simp⟩

theorem mem_split_first {α : Type} [DecidableEq α] : ∀ (l : List α) (a : α),
    a ∈ l → ∃ l1 l2, l = l1 ++ a :: l2 ∧ a ∉ l1
  | [], a, h => absurd h (List.not_mem_nil a)
  | b :: l, a, h => by
    by_cases hab : a = b
    · exact ⟨[], l, by rw [hab]; rfl, List.not_mem_nil a⟩
    · have : a ∈ l := by
        rcases List.mem_cons.1 h with h1 | h1
        · exact absurd h1 hab
        · exact h1
      obtain ⟨l1, l2, hsplit, hnm⟩ := mem_split_first l a this
      exact ⟨b :: l1, l2, by rw [hsplit]; rfl,
        fun hmem => by
          rcases List.mem_cons.1 hmem with h1 | h1
          · exact hab h1
          · exact hnm h1⟩

theorem split_uniq {α : Type} (a : α) : ∀ (P Q P2 Q2 : List α),
    P ++ a :: Q = P2 ++ a :: Q2 → a ∉ P → a ∉ P2 → P = P2 ∧ Q = Q2
  | [], Q, [], Q2, h, _, _ => by
    simp only [List.nil_append, List.cons.injEq] at h
    exact ⟨rfl, h.2⟩
  | [], Q, b :: P2, Q2, h, _, h2 => by
    simp only [List.nil_append, List.cons_append, List.cons.injEq] at h
    exact absurd (h.1 ▸ List.mem_cons_self b P2 : a ∈ b :: P2) h2
  | b :: P, Q, [], Q2, h, h1, _ => by
    simp only [List.cons_append, List.nil_append, List.cons.injEq] at h
    exact absurd (h.1 ▸ List.mem_cons_self b P : a ∈ b :: P) h1
  | b :: P, Q, c :: P2, Q2, h, h1, h2 => by
    simp only [List.cons_append, List.cons.injEq] at h
    obtain ⟨hres1, hres2⟩ := split_uniq a P Q P2 Q2 h.2
      (fun hm => h1 (List.mem_cons_of_mem b hm))
      (fun hm => h2 (List.mem_cons_of_mem c hm))
    exact ⟨by rw [h.1, hres1], hres2⟩

theorem find_uniq {α : Type} (p : α → Bool) : ∀ (l : List α) (a : α),
    l.countP p ≤ 1 → a ∈ l → p a = true → l.find? p = some a
  | [], a, _, hm, _ => absurd hm (List.not_mem_nil a)
  | b :: l, a, hc, hm, hp => by
    rw [List.countP_cons] at hc
    rcases hb : p b with _ | _
    · rw [List.find?_cons_of_neg _ (by simp [hb])]
      have : a ∈ l := by
        rcases List.mem_cons.1 hm with h1 | h1
        · rw [h1] at hp; rw [hp] at hb; cases hb
        · exact h1
      exact find_uniq p l a (by omega) this hp
    · rw [List.find?_cons_of_pos _ hb]
      rcases List.mem_cons.1 hm with h1 | h1
      · rw [h1]
      · exfalso
        have : 0 < l.countP p := List.countP_pos_iff.2 ⟨a, h1, hp⟩
        rw [hb, if_pos rfl] at hc
        omega

theorem find?_map_fst {α β : Type} (f : α → β) (p : β → Bool) : ∀ (l : List α),
    (l.map f).find? p = (l.find? (fun a => p (f a))).map f
  | [] => rfl
  | a :: l => by
    rcases hp : p (f a) with _ | _
    · rw [List.map_cons, List.find?_cons_of_neg _ (by simp [hp]),
        List.find?_cons_of_neg _ (by simp [hp])]
      exact find?_map_fst f p l
    · rw [List.map_cons]
      rw [List.find?_cons_of_pos _ hp]
      have h2 : List.find? (fun a => p (f a)) (a :: l) = some a :=
        List.find?_cons_of_pos _ (show (fun a => p (f a)) a = true from hp)
      rw [h2]
      rfl

theorem countP_mono_of {α : Type} (p q : α → Bool)
    (hpq : ∀ a, p a = true → q a = true) : ∀ (l : List α), l.countP p ≤ l.countP q
  | [] => le_refl _
  | a :: l => by
    rw [List.countP_cons, List.countP_cons]
    have ih := countP_mono_of p q hpq l
    rcases hp : p a with _ | _
    · rw [show (if false = true then 1 else 0) = 0 from rfl]
      rcases hq : q a with _ | _
      · rw [show (if false = true then 1 else 0) = 0 from rfl]
        omega
      · rw [show (if true = true then 1 else 0) = 1 from rfl]
        omega
    · rw [hpq a hp]
      rw [show (if true = true then 1 else 0) = 1 from rfl]
      omega

mutual
theorem pwpA_map_fst : ∀ (a : ANode) (path : List ANode) (parent : Option ANode),
    (pwpA a path parent).map Prod.fst = preA a
  | .mk r n t c, path, parent => by
    rw [pwpA_eq, preA_def, List.map_cons]
    rw [pwpLA_map_fst c (path ++ [ANode.mk r n t c]) (some (ANode.mk r n t c))]
theorem pwpLA_map_fst : ∀ (cs : List ANode) (path : List ANode) (parent : Option ANode),
    (pwpLA cs path parent).map Prod.fst = preLA cs
  | [], path, parent => by rw [pwpLA_nil, preLA_nil]; rfl
  | c :: cs, path, parent => by
    rw [pwpLA_eq, preLA_cons, List.map_append,
      pwpA_map_fst c path parent, pwpLA_map_fst cs path parent]
end

theorem fst_mem_preA {e : ANode × List ANode × Option ANode} {a : ANode}
    {path : List ANode} {parent : Option ANode} (h : e ∈ pwpA a path parent) :
    e.1 ∈ preA a := by
  rw [← pwpA_map_fst a path parent]
  exact List.mem_map_of_mem Prod.fst h

theorem fst_mem_preLA {e : ANode × List ANode × Option ANode} {cs : List ANode}
    {path : List ANode} {parent : Option ANode} (h : e ∈ pwpLA cs path parent) :
    e.1 ∈ preLA cs := by
  rw [← pwpLA_map_fst cs path parent]
  exact List.mem_map_of_mem Prod.fst h

mutual
theorem mem_preA_below : ∀ (s x : ANode), x ∈ preA s → belowA x s = true
  | .mk r n t c, x, hx => by
    rw [preA_def] at hx
    rw [belowA]
    rw [Bool.or_eq_true]
    rcases List.mem_cons.1 hx with h | h
    · rw [h]
      exact Or.inl ((beqA_iff _ _).2 rfl)
    · exact Or.inr (mem_preLA_below c x h)
theorem mem_preLA_below : ∀ (cs : List ANode) (x : ANode), x ∈ preLA cs → belowLA x cs = true
  | [], x, hx => by rw [preLA_nil] at hx; exact absurd hx (List.not_mem_nil x)
  | a :: as, x, hx => by
    rw [preLA_cons] at hx
    rw [belowLA, Bool.or_eq_true]
    rcases List.mem_append.1 hx with h | h
    · exact Or.inl (mem_preA_below a x h)
    · exact Or.inr (mem_preLA_below as x h)
end

mutual
theorem mem_preA_trans : ∀ (t m x : ANode), m ∈ preA t → x ∈ preA m → x ∈ preA t
  | .mk r n ty c, m, x, hm, hx => by
    rw [preA_def] at hm ⊢
    rcases List.mem_cons.1 hm with h | h
    · rw [← preA_def, ← h]
      exact hx
    · exact List.mem_cons.2 (Or.inr (mem_preLA_trans c m x h hx))
theorem mem_preLA_trans : ∀ (cs : List ANode) (m x : ANode),
    m ∈ preLA cs → x ∈ preA m → x ∈ preLA cs
  | [], m, x, hm, _ => by rw [preLA_nil] at hm; exact absurd hm (List.not_mem_nil m)
  | a :: as, m, x, hm, hx => by
    rw [preLA_cons] at hm ⊢
    rcases List.mem_append.1 hm with h | h
    · exact List.mem_append.2 (Or.inl (mem_preA_trans a m x h hx))
    · exact List.mem_append.2 (Or.inr (mem_preLA_trans as m x h hx))
end

theorem self_mem_preA (a : ANode) : a ∈ preA a := by
  obtain ⟨r, n, t, c⟩ := a
  rw [preA_def]
  exact List.mem_cons_self _ _

theorem mem_cs_mem_preLA {c : ANode} {cs : List ANode} (h : c ∈ cs) : c ∈ preLA cs := by
  induction cs with
  | nil => exact absurd h (List.not_mem_nil c)
  | cons d cs ih =>
    rw [preLA_cons]
    rcases List.mem_cons.1 h with h1 | h1
    · exact List.mem_append.2 (Or.inl (h1 ▸ self_mem_preA d))
    · exact List.mem_append.2 (Or.inr (ih h1))

theorem strictBelow_mem_preA {h s : ANode} (hs : strictBelowA h s = true) : h ∈ preA s := by
  obtain ⟨r, n, t, c⟩ := s
  rw [strictBelowA] at hs
  rw [preA_def]
  exact List.mem_cons.2 (Or.inr (belowLA_mem_preLA c h hs))

/-- Occurrence count of the value `h` in a node list. -/
def occCount (h : ANode) (l : List ANode) : Nat :=
  l.countP (fun x => x == h)

theorem occCount_pos_of_mem {h : ANode} {l : List ANode} (hm : h ∈ l) : 0 < occCount h l :=
  List.countP_pos_iff.2 ⟨h, hm, (beqA_iff h h).2 rfl⟩

theorem mem_of_occCount_pos {h : ANode} {l : List ANode} (hc : 0 < occCount h l) : h ∈ l := by
  obtain ⟨x, hx, hbx⟩ := List.countP_pos_iff.1 hc
  rw [(beqA_iff x h).1 hbx] at hx
  exact hx

theorem occCount_preA_split (r n t : Option String) (c : List ANode) (h : ANode) :
    occCount h (preA (.mk r n t c)) =
      (if (ANode.mk r n t c) == h then 1 else 0) + occCount h (preLA c) := by
  rw [occCount, preA_def, List.countP_cons, occCount]
  rcases hb : (ANode.mk r n t c == h) with _ | _ <;> simp [hb]
  all_goals omega

theorem occCount_preLA_cons (a : ANode) (as : List ANode) (h : ANode) :
    occCount h (preLA (a :: as)) = occCount h (preA a) + occCount h (preLA as) := by
  rw [occCount, preLA_cons, List.countP_append]
  rfl

/-! The ordering lemma: if `h` occurs exactly once and is a strict
descendant of an occurrence of `m`, then `m` occurs strictly before `h` in
document order. -/

mutual
theorem ordA : ∀ (t h m : ANode), occCount h (preA t) = 1 →
    m ∈ preA t → strictBelowA h m = true →
    ∃ l1 l2, preA t = l1 ++ m :: l2 ∧ h ∈ l2
  | .mk r n ty cs, h, m, hc, hm, hsb => by
    rw [preA_def] at hm
    rcases List.mem_cons.1 hm with he | he
    · refine ⟨[], preLA cs, by rw [preA_def, he]; rfl, ?_⟩
      have hpm : h ∈ preA m := strictBelow_mem_preA hsb
      have h2 : h ∈ preA (ANode.mk r n ty cs) := by
        rw [he] at hpm
        exact hpm
      rw [preA_def] at h2
      rcases List.mem_cons.1 h2 with h3 | h3
      · exfalso
        rw [← he] at h3
        exact strictBelowA_irrefl h m hsb (by rw [h3]; exact self_mem_preA m)
      · exact h3
    · have hhin : h ∈ preLA cs :=
        mem_preLA_trans cs m h he (strictBelow_mem_preA hsb)
      have hcs : occCount h (preLA cs) = 1 := by
        have := occCount_preA_split r n ty cs h
        have hpos := occCount_pos_of_mem hhin
        omega
      obtain ⟨l1, l2, hsplit, hmem⟩ := ordLA cs h m hcs he hsb
      exact ⟨ANode.mk r n ty cs :: l1, l2, by rw [preA_def, hsplit]; rfl, hmem⟩
theorem ordLA : ∀ (cs : List ANode) (h m : ANode), occCount h (preLA cs) = 1 →
    m ∈ preLA cs → strictBelowA h m = true →
    ∃ l1 l2, preLA cs = l1 ++ m :: l2 ∧ h ∈ l2
  | [], h, m, _, hm, _ => by rw [preLA_nil] at hm; exact absurd hm (List.not_mem_nil m)
  | c :: cs, h, m, hc, hm, hsb => by
    rw [preLA_cons] at hm
    rw [occCount_preLA_cons] at hc
    rcases List.mem_append.1 hm with he | he
    · have hhc : h ∈ preA c := mem_preA_trans c m h he (strictBelow_mem_preA hsb)
      have h1 : occCount h (preA c) = 1 := by
        have := occCount_pos_of_mem hhc
        omega
      obtain ⟨l1, l2, hsplit, hmem⟩ := ordA c h m h1 he hsb
      exact ⟨l1, l2 ++ preLA cs, by rw [preLA_cons, hsplit]; simp, List.mem_append.2 (Or.inl hmem)⟩
    · have hhc : h ∈ preLA cs := mem_preLA_trans cs m h he (strictBelow_mem_preA hsb)
      have h1 : occCount h (preLA cs) = 1 := by
        have := occCount_pos_of_mem hhc
        omega
      obtain ⟨l1, l2, hsplit, hmem⟩ := ordLA cs h m h1 he hsb
      exact ⟨preA c ++ l1, l2, by rw [preLA_cons, hsplit]; simp, hmem⟩
end

/-! The path lemma: for the unique entry of a once-occurring node `h`, the
`path` argument contains exactly the outer path plus the ancestors of `h`
inside the subtree. -/

mutual
theorem pathA : ∀ (t : ANode) (p0 : List ANode) (par : Option ANode)
    (h : ANode) (e : ANode × List ANode × Option ANode),
    occCount h (preA t) = 1 → e ∈ pwpA t p0 par → e.1 = h →
    ∀ m, (m ∈ e.2.1 ↔ m ∈ p0 ∨ (m ∈ preA t ∧ strictBelowA h m = true))
  | .mk r n ty cs, p0, par, h, e, hocc, he, hfst => by
    rw [pwpA_eq] at he
    rcases List.mem_cons.1 he with hh | hh
    · subst hh
      simp only at hfst
      intro m
      have hnix : ¬ (m ∈ preA (ANode.mk r n ty cs) ∧ strictBelowA h m = true) := by
        rintro ⟨hm1, hm2⟩
        rw [hfst] at hm1
        exact strictBelowA_irrefl h m hm2 hm1
      constructor
      · intro hm
        exact Or.inl hm
      · rintro (hm | hm)
        · exact hm
        · exact absurd hm hnix
    · have hhin : h ∈ preLA cs := by
        rw [← hfst]
        exact fst_mem_preLA hh
      have hocc2 : occCount h (preLA cs) = 1 := by
        have := occCount_preA_split r n ty cs h
        have := occCount_pos_of_mem hhin
        omega
      have hsbnode : strictBelowA h (ANode.mk r n ty cs) = true :=
        mem_preLA_below cs h hhin
      have hiff := pathLA cs (p0 ++ [ANode.mk r n ty cs])
        (some (ANode.mk r n ty cs)) h e hocc2 hh hfst
      intro m
      rw [hiff m, preA_def]
      constructor
      · rintro (hm | ⟨hm1, hm2⟩)
        · rcases List.mem_append.1 hm with hm3 | hm3
          · exact Or.inl hm3
          · have hmn : m = ANode.mk r n ty cs := List.mem_singleton.1 hm3
            exact Or.inr ⟨List.mem_cons.2 (Or.inl hmn), by rw [hmn]; exact hsbnode⟩
        · exact Or.inr ⟨List.mem_cons.2 (Or.inr hm1), hm2⟩
      · rintro (hm | ⟨hm1, hm2⟩)
        · exact Or.inl (List.mem_append.2 (Or.inl hm))
        · rcases List.mem_cons.1 hm1 with hm3 | hm3
          · exact Or.inl (List.mem_append.2 (Or.inr (List.mem_singleton.2 hm3)))
          · exact Or.inr ⟨hm3, hm2⟩
theorem pathLA : ∀ (cs : List ANode) (p0 : List ANode) (par : Option ANode)
    (h : ANode) (e : ANode × List ANode × Option ANode),
    occCount h (preLA cs) = 1 → e ∈ pwpLA cs p0 par → e.1 = h →
    ∀ m, (m ∈ e.2.1 ↔ m ∈ p0 ∨ (m ∈ preLA cs ∧ strictBelowA h m = true))
  | [], p0, par, h, e, _, he, _ => by
    rw [pwpLA_nil] at he
    exact absurd he (List.not_mem_nil e)
  | c :: cs, p0, par, h, e, hocc, he, hfst => by
    rw [pwpLA_eq] at he
    rw [occCount_preLA_cons] at hocc
    rcases List.mem_append.1 he with hh | hh
    · have hhin : h ∈ preA c := by
        rw [← hfst]
        exact fst_mem_preA hh
      have hocc1 : occCount h (preA c) = 1 := by
        have := occCount_pos_of_mem hhin
        omega
      have hocc0 : occCount h (preLA cs) = 0 := by
        have := occCount_pos_of_mem hhin
        omega
      have hiff := pathA c p0 par h e hocc1 hh hfst
      intro m
      rw [hiff m, preLA_cons]
      have hnix : ¬ (m ∈ preLA cs ∧ strictBelowA h m = true) := by
        rintro ⟨hm1, hm2⟩
        have : h ∈ preLA cs := mem_preLA_trans cs m h hm1 (strictBelow_mem_preA hm2)
        have := occCount_pos_of_mem this
        omega
      constructor
      · rintro (hm | ⟨hm1, hm2⟩)
        · exact Or.inl hm
        · exact Or.inr ⟨List.mem_append.2 (Or.inl hm1), hm2⟩
      · rintro (hm | ⟨hm1, hm2⟩)
        · exact Or.inl hm
        · rcases List.mem_append.1 hm1 with hm3 | hm3
          · exact Or.inr ⟨hm3, hm2⟩
          · exact absurd ⟨hm3, hm2⟩ hnix
    · have hhin : h ∈ preLA cs := by
        rw [← hfst]
        exact fst_mem_preLA hh
      have hocc1 : occCount h (preLA cs) = 1 := by
        have := occCount_pos_of_mem hhin
        omega
      have hocc0 : occCount h (preA c) = 0 := by
        have := occCount_pos_of_mem hhin
        omega
      have hiff := pathLA cs p0 par h e hocc1 hh hfst
      intro m
      rw [hiff m, preLA_cons]
      have hnix : ¬ (m ∈ preA c ∧ strictBelowA h m = true) := by
        rintro ⟨hm1, hm2⟩
        have : h ∈ preA c := mem_preA_trans c m h hm1 (strictBelow_mem_preA hm2)
        have := occCount_pos_of_mem this
        omega
      constructor
      · rintro (hm | ⟨hm1, hm2⟩)
        · exact Or.inl hm
        · exact Or.inr ⟨List.mem_append.2 (Or.inr hm1), hm2⟩
      · rintro (hm | ⟨hm1, hm2⟩)
        · exact Or.inl hm
        · rcases List.mem_append.1 hm1 with hm3 | hm3
          · exact absurd ⟨hm3, hm2⟩ hnix
          · exact Or.inr ⟨hm3, hm2⟩
end

theorem contains_iff_memA (l : List ANode) (x : ANode) : l.contains x = true ↔ x ∈ l := by
  induction l with
  | nil => simp
  | cons a l ih =>
    simp only [List.contains_cons, Bool.or_eq_true, List.mem_cons, ih]
    constructor
    · rintro (h | h)
      · exact Or.inl ((beqA_iff x a).1 h)
      · exact Or.inr h
    · rintro (h | h)
      · exact Or.inl ((beqA_iff x a).2 h)
      · exact Or.inr h

theorem mem_children_mem_preA {h : ANode} {x : ANode} (hm : h ∈ x.children) :
    h ∈ preA x := by
  obtain ⟨r, n, t, c⟩ := x
  rw [preA_def]
  exact List.mem_cons.2 (Or.inr (mem_cs_mem_preLA hm))

/-- If `h` does not occur in a subtree-closed node list, no node of the list
has `h` among its direct children. -/
theorem find_cc_none (h : ANode) (L : List ANode)
    (hclosed : ∀ n ∈ L, ∀ x ∈ preA n, x ∈ L)
    (hcount : occCount h L = 0) :
    L.find? (fun n => n.children.contains h) = none := by
  rw [List.find?_eq_none]
  intro n hn hcc
  have hmem : h ∈ n.children := (contains_iff_memA _ _).1 hcc
  have : h ∈ L := hclosed n hn h (mem_children_mem_preA hmem)
  have := occCount_pos_of_mem this
  omega

mutual
theorem parA : ∀ (t : ANode) (p0 : List ANode) (par : Option ANode) (h : ANode)
    (e : ANode × List ANode × Option ANode),
    occCount h (preA t) = 1 → e ∈ pwpA t p0 par → e.1 = h →
    ((h = t → e = (t, p0, par) ∧
        (preA t).find? (fun n => n.children.contains h) = none) ∧
     (h ≠ t → (preA t).find? (fun n => n.children.contains h) = e.2.2))
  | .mk r n ty cs, p0, par, h, e, hocc, he, hfst => by
    rw [pwpA_eq] at he
    rcases List.mem_cons.1 he with hh | hh
    · subst hh
      simp only at hfst
      constructor
      · intro _
        refine ⟨rfl, ?_⟩
        rw [List.find?_eq_none]
        intro x hx hcc
        have hmem : h ∈ x.children := (contains_iff_memA _ _).1 hcc
        have h1 : h ∈ preA x := mem_children_mem_preA hmem
        have h2 : x ∈ preA h := by
          rw [hfst] at hx
          exact hx
        obtain ⟨xr, xn, xt, xc⟩ := x
        have s2 := mem_preA_sz h (ANode.mk xr xn xt xc) h2
        have s3 : szA h ≤ szLA xc := mem_preLA_sz xc h (mem_cs_mem_preLA hmem)
        have s4 : szA (ANode.mk xr xn xt xc) = 1 + szLA xc := szA_def xr xn xt xc
        omega
      · intro hne
        exact absurd hfst.symm hne
    · have hhin : h ∈ preLA cs := by
        rw [← hfst]
        exact fst_mem_preLA hh
      have hpos := occCount_pos_of_mem hhin
      have hsplit := occCount_preA_split r n ty cs h
      have hocc2 : occCount h (preLA cs) = 1 := by omega
      have hbeq : (ANode.mk r n ty cs == h) = false := by
        rcases hb : (ANode.mk r n ty cs == h) with _ | _
        · rfl
        · rw [hb] at hsplit
          rw [if_pos rfl] at hsplit
          omega
      have hne : h ≠ ANode.mk r n ty cs := by
        intro heq
        have hb2 : beqA (ANode.mk r n ty cs) h = true := (beqA_iff _ _).2 heq.symm
        have hb3 : beqA (ANode.mk r n ty cs) h = false := hbeq
        rw [hb2] at hb3
        cases hb3
      have IH := parLA cs (p0 ++ [ANode.mk r n ty cs])
        (some (ANode.mk r n ty cs)) h e hocc2 hh hfst
      constructor
      · intro heq
        exact absurd heq hne
      · intro _
        rw [preA_def]
        by_cases hin : h ∈ cs
        · obtain ⟨hpar, _⟩ := IH.1 hin
          rw [@List.find?_cons_of_pos ANode (fun n => n.children.contains h)
              (ANode.mk r n ty cs) (preLA cs) ((contains_iff_memA _ _).2 hin)]
          rw [hpar]
        · rw [@List.find?_cons_of_neg ANode (fun n => n.children.contains h)
              (ANode.mk r n ty cs) (preLA cs) (by
                intro hcc
                exact hin ((contains_iff_memA _ _).1 hcc))]
          exact IH.2 hin
theorem parLA : ∀ (cs : List ANode) (p0 : List ANode) (par : Option ANode) (h : ANode)
    (e : ANode × List ANode × Option ANode),
    occCount h (preLA cs) = 1 → e ∈ pwpLA cs p0 par → e.1 = h →
    ((h ∈ cs → e.2.2 = par ∧
        (preLA cs).find? (fun n => n.children.contains h) = none) ∧
     (h ∉ cs → (preLA cs).find? (fun n => n.children.contains h) = e.2.2))
  | [], p0, par, h, e, _, he, _ => by
    rw [pwpLA_nil] at he
    exact absurd he (List.not_mem_nil e)
  | c :: cs, p0, par, h, e, hocc, he, hfst => by
    rw [pwpLA_eq] at he
    rw [occCount_preLA_cons] at hocc
    rcases List.mem_append.1 he with hh | hh
    · have hhin : h ∈ preA c := by
        rw [← hfst]
        exact fst_mem_preA hh
      have hpos := occCount_pos_of_mem hhin
      have hoccA : occCount h (preA c) = 1 := by omega
      have hoccL : occCount h (preLA cs) = 0 := by omega
      have hLnone : (preLA cs).find? (fun n => n.children.contains h) = none :=
        find_cc_none h (preLA cs) (fun n hn x hx => mem_preLA_trans cs n x hn hx) hoccL
      have IH := parA c p0 par h e hoccA hh hfst
      have hnotcs : h ∉ cs := by
        intro hmem
        have := occCount_pos_of_mem (mem_cs_mem_preLA hmem)
        omega
      by_cases hch : h = c
      · obtain ⟨hee, hAnone⟩ := IH.1 hch
        constructor
        · intro _
          refine ⟨by rw [hee], ?_⟩
          rw [preLA_cons, List.find?_append, hAnone, hLnone]
          rfl
        · intro hnot
          exact absurd (List.mem_cons.2 (Or.inl hch)) hnot
      · have hfindA := IH.2 hch
        constructor
        · intro hin
          rcases List.mem_cons.1 hin with h1 | h1
          · exact absurd h1 hch
          · exact absurd h1 hnotcs
        · intro _
          rw [preLA_cons, List.find?_append, hfindA, hLnone]
          cases e.2.2 <;> rfl
    · have hhin : h ∈ preLA cs := by
        rw [← hfst]
        exact fst_mem_preLA hh
      have hpos := occCount_pos_of_mem hhin
      have hoccL : occCount h (preLA cs) = 1 := by omega
      have hoccA : occCount h (preA c) = 0 := by omega
      have hAnone : (preA c).find? (fun n => n.children.contains h) = none :=
        find_cc_none h (preA c) (fun n hn x hx => mem_preA_trans c n x hn hx) hoccA
      have IH := parLA cs p0 par h e hoccL hh hfst
      have hch : h ≠ c := by
        intro heq
        have : h ∈ preA c := heq ▸ self_mem_preA h
        have := occCount_pos_of_mem this
        omega
      by_cases hin : h ∈ cs
      · obtain ⟨hpar, hLnone⟩ := IH.1 hin
        constructor
        · intro _
          refine ⟨hpar, ?_⟩
          rw [preLA_cons, List.find?_append, hAnone, hLnone]
          rfl
        · intro hnot
          exact absurd (List.mem_cons.2 (Or.inr hin)) hnot
      · have hfindL := IH.2 hin
        constructor
        · intro hmem
          rcases List.mem_cons.1 hmem with h1 | h1
          · exact absurd h1 hch
          · exact absurd h1 hin
        · intro _
          rw [preLA_cons, List.find?_append, hAnone, hfindL]
          cases e.2.2 <;> rfl
end

theorem hdr_not_main {x : ANode} (hx : isHdrA x = true) : isMainA x = false := by
  rw [isHdrA, Bool.and_eq_true] at hx
  have hr : x.role = some "header" := by
    have := hx.1
    simpa using this
  rw [isMainA, hr]
  rfl

theorem not_isHdr_of_mem_map {l : List (ANode × List ANode × Option ANode)}
    (hl : ∀ x ∈ l, isHdrA x.1 = false) {a : ANode} (ha : a ∈ l.map Prod.fst) :
    isHdrA a = false := by
  obtain ⟨e, he, hfe⟩ := List.mem_map.1 ha
  rw [← hfe]
  exact hl e he

/-- The header-present half of C3: with a unique `main` and a unique header
match `h`, `find_working_node` returns the `main` landmark when `h` is not a
strict descendant of it, and `h`'s direct parent when it is. -/
theorem c3_with_header (t h : ANode)
    (hm : (preA t).countP isMainA ≤ 1)
    (hh : (preA t).countP isHdrA ≤ 1)
    (hfind : (preA t).find? isHdrA = some h) :
    (descOfMain t h = false → findWorkingNode t = firstMainIn t) ∧
    (descOfMain t h = true → findWorkingNode t = parentIn t h) := by
  have hisHdr : isHdrA h = true := List.find?_some hfind
  have hmemh : h ∈ preA t := List.mem_of_find?_eq_some hfind
  have hocc1 : occCount h (preA t) = 1 := by
    have hle : occCount h (preA t) ≤ (preA t).countP isHdrA :=
      countP_mono_of _ _ (fun x hx => by rw [(beqA_iff x h).1 hx]; exact hisHdr) (preA t)
    have := occCount_pos_of_mem hmemh
    omega
  have hmap : (pwpA t [] none).map Prod.fst = preA t := pwpA_map_fst t [] none
  have hfind2 : ((pwpA t [] none).find? (fun e => isHdrA e.1)).map Prod.fst = some h := by
    have hfm := find?_map_fst Prod.fst isHdrA (pwpA t [] none)
    rw [hmap, hfind] at hfm
    exact hfm.symm
  obtain ⟨eh, hehfind, hehfst⟩ :
      ∃ eh, (pwpA t [] none).find? (fun e => isHdrA e.1) = some eh ∧ eh.1 = h := by
    rcases hef : (pwpA t [] none).find? (fun e => isHdrA e.1) with _ | eh
    · rw [hef] at hfind2
      cases hfind2
    · rw [hef] at hfind2
      refine ⟨eh, hef, ?_⟩
      simpa using hfind2
  obtain ⟨pre, post, hsplit, hpre⟩ := find_decomp _ _ _ hehfind
  have hehmem : eh ∈ pwpA t [] none := by
    rw [hsplit]
    exact List.mem_append.2 (Or.inr (List.mem_cons_self _ _))
  obtain ⟨hn, ph, parh⟩ := eh
  simp only at hehfst
  subst hehfst
  have hPQ : preA t = pre.map Prod.fst ++ hn :: post.map Prod.fst := by
    rw [← hmap, hsplit, List.map_append, List.map_cons]
  have hcnt : (pre.map Prod.fst).countP isHdrA = 0 ∧
      (post.map Prod.fst).countP isHdrA = 0 := by
    have h2 := hh
    rw [hPQ, List.countP_append, List.countP_cons, hisHdr, if_pos rfl] at h2
    omega
  have hpostH : ∀ e ∈ post, isHdrA e.1 = false := by
    intro e he
    have hmem : e.1 ∈ post.map Prod.fst := List.mem_map_of_mem Prod.fst he
    have := List.countP_eq_zero.1 hcnt.2 e.1 hmem
    simpa using this
  have hpreH : ∀ e ∈ pre, isHdrA e.1 = false := fun e he => hpre e he
  have hMle : (pre.map Prod.fst).countP isMainA ≤ 1 := by
    have h2 := hm
    rw [hPQ, List.countP_append, List.countP_cons] at h2
    omega
  have hflat : traverseA t [] none initTI = (pwpA t [] none).foldl stepT initTI :=
    travA_flat t [] none initTI
  have hpreF : pre.foldl stepT initTI =
      ⟨lastMainUpd none (pre.map Prod.fst), none, none, false, false⟩ := by
    have := foldl_noHdr pre initTI rfl rfl hpreH
    rw [this]
    rfl
  have hlast : lastMainUpd none (pre.map Prod.fst) = (pre.map Prod.fst).find? isMainA :=
    lastMainUpd_eq_find _ hMle
  have hMainHn : isMainA hn = false := hdr_not_main hisHdr
  have hstep2 : ∀ M : Option ANode,
      stepT ⟨M, none, none, false, false⟩ (hn, ph, parh) =
        (if mainInPath M ph then
          ⟨M, some hn, parh, true, true⟩
        else ⟨M, some hn, parh, false, false⟩) := by
    intro M
    rw [stepT, if_neg (by simp)]
    dsimp only
    rw [hMainHn, hisHdr]
    simp only [Bool.false_and, Bool.false_eq_true, if_false, if_pos]
  have hfoldAll : (pwpA t [] none).foldl stepT initTI =
      post.foldl stepT (stepT ⟨lastMainUpd none (pre.map Prod.fst), none, none, false, false⟩
        (hn, ph, parh)) := by
    rw [hsplit, List.foldl_append, List.foldl_cons, hpreF]
  constructor
  · -- case (ii): not a descendant of main
    intro hdesc
    have hnotin : mainInPath ((pre.map Prod.fst).find? isMainA) ph = false := by
      rcases hMp : (pre.map Prod.fst).find? isMainA with _ | m'
      · rfl
      · rw [mainInPath]
        rcases hcm : ph.contains m' with _ | _
        · rfl
        · exfalso
          have hmem : m' ∈ ph := (contains_iff_memA ph m').1 hcm
          have hiff := pathA t [] none hn (hn, ph, parh) hocc1 hehmem rfl m'
          rcases hiff.1 hmem with hx | hx
          · exact absurd hx (List.not_mem_nil m')
          · have hFM : firstMainIn t = some m' := by
              rw [firstMainIn, hPQ, List.find?_append, hMp]
              rfl
            rw [descOfMain, hFM] at hdesc
            change strictBelowA hn m' = false at hdesc
            rw [hdesc] at hx
            exact absurd hx.2 (by simp)
    have hfin : traverseA t [] none initTI =
        (match (post.map Prod.fst).find? isMainA with
          | some m2 => ⟨some m2, some hn, parh, false, true⟩
          | none => ⟨(pre.map Prod.fst).find? isMainA, some hn, parh, false, false⟩) := by
      rw [hflat, hfoldAll, hstep2, hlast, if_neg (by rw [hnotin]; simp)]
      have := foldl_tgtSet post ⟨(pre.map Prod.fst).find? isMainA, some hn, parh, false, false⟩
        rfl rfl hpostH
      rw [this]
    rw [findWorkingNode, hfin]
    rcases hQ : (post.map Prod.fst).find? isMainA with _ | m2
    · rcases hMp : (pre.map Prod.fst).find? isMainA with _ | m'
      · rw [firstMainIn, hPQ, List.find?_append, hMp,
          List.find?_cons_of_neg _ (by simp [hMainHn]), hQ]
        rfl
      · rw [firstMainIn, hPQ, List.find?_append, hMp]
        rfl
    · have hMp : (pre.map Prod.fst).find? isMainA = none := by
        rcases hMp2 : (pre.map Prod.fst).find? isMainA with _ | m'
        · rfl
        · exfalso
          have h1 : 0 < (pre.map Prod.fst).countP isMainA :=
            List.countP_pos_iff.2 ⟨m', List.mem_of_find?_eq_some hMp2, List.find?_some hMp2⟩
          have h2 : 0 < (post.map Prod.fst).countP isMainA :=
            List.countP_pos_iff.2 ⟨m2, List.mem_of_find?_eq_some hQ, List.find?_some hQ⟩
          have h3 := hm
          rw [hPQ, List.countP_append, List.countP_cons] at h3
          omega
      rw [firstMainIn, hPQ, List.find?_append, hMp,
        List.find?_cons_of_neg _ (by simp [hMainHn]), hQ]
      rfl
  · -- case (iii): descendant of main
    intro hdesc
    rcases hFM : firstMainIn t with _ | m
    · rw [descOfMain, hFM] at hdesc
      change false = true at hdesc
      cases hdesc
    · rw [descOfMain, hFM] at hdesc
      change strictBelowA hn m = true at hdesc
      have hmm : m ∈ preA t := List.mem_of_find?_eq_some hFM
      have hmain : isMainA m = true := List.find?_some hFM
      have hneq : hn ≠ m := by
        intro heq
        rw [← heq] at hmain
        rw [hdr_not_main hisHdr] at hmain
        cases hmain
      obtain ⟨l1, l2, hord, hhl2⟩ := ordA t hn m hocc1 hmm hdesc
      have hcl1 : occCount hn l1 = 0 ∧ hn ∉ l1 := by
        have hc := hocc1
        rw [hord, occCount, List.countP_append, List.countP_cons] at hc
        have hmbeq : (m == hn) = false := by
          rcases hb : (m == hn) with _ | _
          · rfl
          · exact absurd ((beqA_iff m hn).1 hb).symm hneq
        rw [hmbeq, if_neg (by simp)] at hc
        have hl2pos : 0 < l2.countP (fun x => x == hn) := by
          rw [← occCount]
          exact occCount_pos_of_mem hhl2
        have hz : occCount hn l1 = 0 := by rw [occCount]; omega
        exact ⟨hz, fun hmem => by
          have := occCount_pos_of_mem (l := l1) hmem
          omega⟩
      obtain ⟨a2, b2, hsplit2, hna2⟩ := mem_split_first l2 hn hhl2
      have hdecomp2 : preA t = (l1 ++ m :: a2) ++ hn :: b2 := by
        rw [hord, hsplit2]
        simp
      have hnotP : hn ∉ pre.map Prod.fst := by
        intro hmem
        have := not_isHdr_of_mem_map hpreH hmem
        rw [hisHdr] at this
        cases this
      have hnot1 : hn ∉ l1 ++ m :: a2 := by
        intro hmem
        rcases List.mem_append.1 hmem with h1 | h1
        · exact hcl1.2 h1
        · rcases List.mem_cons.1 h1 with h2 | h2
          · exact hneq h2
          · exact hna2 h2
      obtain ⟨hPeq, _⟩ := split_uniq hn (pre.map Prod.fst) (post.map Prod.fst)
        (l1 ++ m :: a2) b2 (by rw [← hPQ, ← hdecomp2]) hnotP hnot1
      have hmP : m ∈ pre.map Prod.fst := by
        rw [hPeq]
        exact List.mem_append.2 (Or.inr (List.mem_cons_self _ _))
      have hMp : (pre.map Prod.fst).find? isMainA = some m :=
        find_uniq isMainA _ m hMle hmP hmain
      have hmph : m ∈ ph := by
        have hiff := pathA t [] none hn (hn, ph, parh) hocc1 hehmem rfl m
        exact hiff.2 (Or.inr ⟨hmm, hdesc⟩)
      have hinpath : mainInPath ((pre.map Prod.fst).find? isMainA) ph = true := by
        rw [hMp, mainInPath]
        exact (contains_iff_memA ph m).2 hmph
      have hfin : traverseA t [] none initTI = ⟨some m, some hn, parh, true, true⟩ := by
        rw [hflat, hfoldAll, hstep2, hlast, if_pos (by rw [hinpath]), hMp]
        exact foldl_break post _ rfl
      have hne_t : hn ≠ t := by
        intro heq
        exact strictBelowA_irrefl hn m hdesc (by rw [← heq] at hmm; exact hmm)
      have hpar := (parA t [] none hn (hn, ph, parh) hocc1 hehmem rfl).2 hne_t
      rw [findWorkingNode, hfin, parentIn, hpar]
      rfl

/-- C3: for a tree with at most one `main`-role node and at most one
header-role node whose name contains "Search Results" (the claim's definite
articles), `find_working_node` returns (i) the `main` landmark when no
header match exists (null when `main` is also absent); (ii) the `main`
landmark when the first header match is not a strict descendant of it; and
(iii) the header's direct parent when the first header match is a strict
descendant of the `main` landmark. -/
theorem c3_find_working_node (t : ANode)
    (hm : (preA t).countP isMainA ≤ 1)
    (hh : (preA t).countP isHdrA ≤ 1) :
    (firstHdrIn t = none → findWorkingNode t = firstMainIn t) ∧
    (∀ h, firstHdrIn t = some h → descOfMain t h = false →
      findWorkingNode t = firstMainIn t) ∧
    (∀ h, firstHdrIn t = some h → descOfMain t h = true →
      findWorkingNode t = parentIn t h) := by
  refine ⟨?_, ?_, ?_⟩
  · intro hnone
    rw [firstHdrIn] at hnone
    have hAll : ∀ e ∈ pwpA t [] none, isHdrA e.1 = false := by
      intro e he
      have h1 : e.1 ∈ preA t := fst_mem_preA he
      have h2 := List.find?_eq_none.1 hnone e.1 h1
      simpa using h2
    have hres := foldl_noHdr (pwpA t [] none) initTI rfl rfl hAll
    have hflat := travA_flat t [] none initTI
    rw [pwpA_map_fst] at hres
    rw [findWorkingNode, hflat, hres]
    rw [firstMainIn, ← lastMainUpd_eq_find (preA t) hm]
    rfl
  · intro h hfh hdesc
    rw [firstHdrIn] at hfh
    exact (c3_with_header t h hm hh hfh).1 hdesc
  · intro h hfh hdesc
    rw [firstHdrIn] at hfh
    exact (c3_with_header t h hm hh hfh).2 hdesc

def c3Hdr : ANode := .mk (some "header") (some "Search Results") none []

def c3Container : ANode :=
  .mk (some "generic") none none [c3Hdr, .mk (some "text") (some "x") none []]

def c3Tree : ANode :=
  .mk (some "RootWebArea") none none [.mk (some "main") none none [c3Container]]

theorem c3_find_working_node_witness :
    findWorkingNode c3Tree = parentIn c3Tree c3Hdr ∧
    findWorkingNode c3Tree = some c3Container :=
  ⟨(c3_find_working_node c3Tree (by decide) (by decide)).2.2 c3Hdr (by rfl) (by rfl),
   by rfl⟩
